import Mathlib

/-!
# Verification of the solibook order-matching engine

This file gives a shallow embedding of the order-matching engine
(`src/unnamed/part_000`, class `OrderMatching`) and proves properties of the
matching algorithm, the order state machine, the market-snapshot derivation
and the pass serializer.

Modelling conventions:
* The Mongo `Order` collection is a `List Order` in natural (insertion) order;
  `findOne` with a `sort` key returns the first document in sorted order, ties
  resolved by document order (`findOneSorted`).
* `BigNumber` decimal strings are embedded as `Int` values; the query filter
  `currentVolume: { $ne: '0' }` is embedded as `currentVolume ≠ 0`, which
  coincides with the string comparison whenever the stored string is the
  canonical representation of the value.
* The engine is modelled as a sequential transition system: `placeOrder`,
  `cancelOrder` and serializer-driven matching passes are atomic operations
  (the pass serializer guarantees a single active pass).
* The JS `while` loop of `processOrder` is embedded with explicit fuel; fuel
  sufficiency is proved separately (termination claim).
* Committed fills are recorded in an audit log (`fills`) holding, for each
  fill, the two order snapshots it was computed from and the committed
  volume and price.
-/

/-- `status` field of an order document: `['unprocessed', 'processed', 'canceled']`. -/
inductive Status where
  | unprocessed
  | processed
  | canceled
deriving DecidableEq, Repr

/-- An `Order` document of the order schema in `part_000` (constructor):
`limit : Number`, `originalVolume/currentVolume : String` (decimal),
`isSelling : Boolean`, `status`, `userId`, `created : Date`. -/
structure Order where
  id : Nat
  limit : Int
  originalVolume : Int
  currentVolume : Int
  isSelling : Bool
  status : Status
  userId : String
  created : Nat
deriving DecidableEq, Repr

/-- One committed fill of the matching loop: the two order snapshots it was
computed from (`incomingVolume`/`counterVolume` are the `currentVolume`
values at match time) together with the committed `volume` and `price`. -/
structure Fill where
  incomingId : Nat
  counterId : Nat
  incomingVolume : Int
  counterVolume : Int
  incomingLimit : Int
  counterLimit : Int
  incomingSelling : Bool
  volume : Int
  price : Int
deriving DecidableEq, Repr

/-- A `MarketData` document.  The schema stores decimal strings; an absent
value (the JS empty string `''`) is embedded as `none`. -/
structure Snapshot where
  sellVolume : Option Int
  sellPrice : Option Int
  buyVolume : Option Int
  buyPrice : Option Int
  matchVolume : Option Int
  matchPrice : Option Int
deriving DecidableEq, Repr

/-- Whole engine state: the two collections, the fill audit log, the
serializer's `this.processing` flag, and the id / timestamp generators
(Mongo object ids and `Date.now` are monotone).  `market` holds the newest
snapshot first (`getLatestMarketData` sorts by `created` descending). -/
structure EngineState where
  orders : List Order
  market : List Snapshot
  fills : List Fill
  processing : Bool
  nextId : Nat
  nextTime : Nat
deriving DecidableEq, Repr

/-- Mongo `findOne` with a sort key over a list in document order: scan the
documents passing the filter and keep the first one that no later document
strictly beats (`better x y` = `x` sorts strictly before `y`).  Equal-key
ties thus resolve to the earlier document — a determinization of Mongo's
behaviour, which leaves the order of equal-key documents unspecified; no
theorem may read a guarantee of the source into this tie resolution. -/
def pickBest (better : Order → Order → Bool) : Order → List Order → Order
  | b, [] => b
  | b, o :: rest => pickBest better (if better o b then o else b) rest

/-- `findOne(filter).sort(key)`: first document in sorted order among those
passing the filter; ties take the earlier document in the list modelling
the collection (Mongo itself specifies no order for equal sort keys). -/
def findOneSorted (p : Order → Bool) (better : Order → Order → Bool)
    (l : List Order) : Option Order :=
  match l.filter p with
  | [] => none
  | b :: rest => some (pickBest better b rest)

/-- The counterparty filter of `processOrder` (part_000 lines 107-123):
`currentVolume ≠ '0'`, `status ≠ 'canceled'`, crossing limit
(`$gte` the incoming limit when incoming sells, `$lte` when it buys),
opposite side (`isSelling: !order.isSelling`). -/
def matchFilter (o m : Order) : Bool :=
  m.currentVolume ≠ 0 && m.status ≠ Status.canceled &&
    (if o.isSelling then o.limit ≤ m.limit else m.limit ≤ o.limit) &&
    m.isSelling = !o.isSelling

/-- The counterparty sort of `processOrder` (part_000 lines 124-126):
`limit: -1` (highest bid first) when the incoming order sells,
`limit: 1` (lowest ask first) when it buys. -/
def limitBetter (o x y : Order) : Bool :=
  if o.isSelling then y.limit < x.limit else x.limit < y.limit

/-- The `findOne` counterparty query of the matching loop. -/
def findMatching (st : List Order) (o : Order) : Option Order :=
  findOneSorted (matchFilter o) (limitBetter o) st

/-- `Order.update({_id: id}, {currentVolume: v})`: set the current volume of
the document(s) with the given id. -/
def setVolume (st : List Order) (id : Nat) (v : Int) : List Order :=
  st.map fun x => if x.id = id then { x with currentVolume := v } else x

/-- `Order.update({_id: id}, {status: s})`. -/
def setStatus (st : List Order) (id : Nat) (s : Status) : List Order :=
  st.map fun x => if x.id = id then { x with status := s } else x

/-- `Order.findById` / point read by `_id`. -/
def getOrder (st : List Order) (id : Nat) : Option Order :=
  st.find? fun x => x.id = id

/-- Result of the matching `while` loop: the updated store, the grown fill
log, the in-memory incoming order, the `latestVolume`/`latestPrice` pair
(`none` embeds the initial `''` values), and whether the loop reached a
normal exit within the given fuel. -/
structure LoopResult where
  orders : List Order
  fills : List Fill
  incoming : Order
  latest : Option (Int × Int)
  completed : Bool
deriving DecidableEq, Repr

/-- One iteration's store update (part_000 lines 134-144): set the incoming
order's stored volume to `order.currentVolume - volume` (computed from the
in-memory read) and the counterparty's to `matching.currentVolume - volume`,
where `volume = min(order.currentVolume, matching.currentVolume)`. -/
def stepOrders (st : List Order) (o m : Order) : List Order :=
  setVolume (setVolume st o.id (o.currentVolume - min o.currentVolume m.currentVolume))
    m.id (m.currentVolume - min o.currentVolume m.currentVolume)

/-- One iteration's committed fill (part_000 lines 130-131):
`volume = min(order.currentVolume, matching.currentVolume)`,
`price = order.isSelling ? max(order.limit, matching.limit) : order.limit`. -/
def stepFill (o m : Order) : Fill :=
  { incomingId := o.id, counterId := m.id,
    incomingVolume := o.currentVolume, counterVolume := m.currentVolume,
    incomingLimit := o.limit, counterLimit := m.limit,
    incomingSelling := o.isSelling,
    volume := min o.currentVolume m.currentVolume,
    price := if o.isSelling then max o.limit m.limit else o.limit }

/-- The in-memory incoming order after one iteration (part_000 line 149). -/
def stepIncoming (o m : Order) : Order :=
  { o with currentVolume := o.currentVolume - min o.currentVolume m.currentVolume }

/-- The `latestVolume`/`latestPrice` pair set by one iteration (part_000
lines 132-133). -/
def stepLatest (o m : Order) : Int × Int :=
  (min o.currentVolume m.currentVolume,
    if o.isSelling then max o.limit m.limit else o.limit)

/-- The matching `while` loop of `processOrder` (part_000 lines 106-152),
with explicit fuel.  Each iteration: query the best crossing counterparty;
if none, break; otherwise commit the step's fill (volume, price), update
both stored volumes atomically, and (the `nModified === 1` check
succeeding) decrement the in-memory volume. -/
def matchLoop : Nat → List Order → List Fill → Order → Option (Int × Int) → LoopResult
  | 0, st, fills, o, latest => ⟨st, fills, o, latest, decide (o.currentVolume ≤ 0)⟩
  | fuel + 1, st, fills, o, latest =>
    if 0 < o.currentVolume then
      match findMatching st o with
      | none => ⟨st, fills, o, latest, true⟩
      | some m =>
        matchLoop fuel (stepOrders st o m) (fills ++ [stepFill o m])
          (stepIncoming o m) (some (stepLatest o m))
    else ⟨st, fills, o, latest, true⟩


/-- Eligibility filter of the best-ask query (part_000 lines 161-169). -/
def isEligibleSell (x : Order) : Bool :=
  x.status ≠ Status.canceled && x.currentVolume ≠ 0 && x.isSelling

/-- Eligibility filter of the best-bid query (part_000 lines 175-183). -/
def isEligibleBuy (x : Order) : Bool :=
  x.status ≠ Status.canceled && x.currentVolume ≠ 0 && !x.isSelling

/-- Best resting sell: `findOne(...).sort({limit: 1})` — lowest ask. -/
def bestSell (st : List Order) : Option Order :=
  findOneSorted isEligibleSell (fun x y => x.limit < y.limit) st

/-- Best resting buy: `findOne(...).sort({limit: -1})` — highest bid. -/
def bestBuy (st : List Order) : Option Order :=
  findOneSorted isEligibleBuy (fun x y => y.limit < x.limit) st

/-- `findOne({status: 'unprocessed'}).sort({created: 1})` of `matchNextOrder`. -/
def oldestUnprocessed (st : List Order) : Option Order :=
  findOneSorted (fun x => x.status = Status.unprocessed)
    (fun x y => x.created < y.created) st

/-- The matching loop as invoked by `processOrder` on an engine state:
the store can sustain at most `length` fills before every counterparty or
the incoming order is exhausted, so `length + 1` fuel is enough (proved in
the termination theorem). -/
def matchLoopOf (st : EngineState) (o : Order) : LoopResult :=
  matchLoop (st.orders.length + 1) st.orders st.fills o none

/-- The `MarketData.create` payload of `processOrder` (part_000 lines
189-203): best resting sell and buy, and the pass's last fill — carried
forward from the previous snapshot when the pass produced no fill
(`!latestVolume && !latestPrice && latestMarketData`). -/
def mkSnapshot (orders : List Order) (latest : Option (Int × Int))
    (prev : Option Snapshot) : Snapshot :=
  let ls := bestSell orders
  let lb := bestBuy orders
  let mvp : Option Int × Option Int :=
    match latest with
    | some vp => (some vp.1, some vp.2)
    | none =>
      match prev with
      | some s => (s.matchVolume, s.matchPrice)
      | none => (none, none)
  { sellVolume := ls.map Order.currentVolume, sellPrice := ls.map Order.limit,
    buyVolume := lb.map Order.currentVolume, buyPrice := lb.map Order.limit,
    matchVolume := mvp.1, matchPrice := mvp.2 }

/-- `processOrder(order)` (part_000 lines 99-209): run the matching loop,
set the order's status to `processed`, append a market snapshot, clear the
serializer flag. -/
def processOrder (st : EngineState) (o : Order) : EngineState :=
  let r := matchLoopOf st o
  let orders2 := setStatus r.orders o.id Status.processed
  let snap := mkSnapshot orders2 r.latest st.market.head?
  { st with
      orders := orders2, fills := r.fills, market := snap :: st.market,
      processing := false }

/-- The drain of `matchNextOrder` (part_000 lines 211-233): if the busy flag
is set, return; otherwise set it, fetch the oldest unprocessed order, run a
pass on it and recurse (each pass clears the flag, so the recursion
proceeds).  Fuel bounds the recursion; each pass turns one unprocessed
order `processed` and creates none, so `length + 1` fuel drains fully. -/
def drainLoop : Nat → EngineState → EngineState
  | 0, st => st
  | fuel + 1, st =>
    if st.processing then st
    else
      let st1 : EngineState := { st with processing := true }
      match oldestUnprocessed st1.orders with
      | none => { st1 with processing := false }
      | some o => drainLoop fuel (processOrder st1 o)

/-- `matchNextOrder()` — the pass serializer's trigger. -/
def matchNextOrder (st : EngineState) : EngineState :=
  drainLoop (st.orders.length + 1) st

/-- `placeOrder(limit, volume, userId, isSelling)` (part_000 lines 235-253):
save a new order (status defaults to `unprocessed`, `currentVolume =
originalVolume = volume` — no validation of `limit` or `volume`), then
trigger the serializer.  The JS function returns `undefined`, embedded as
`none` in the second component. -/
def placeOrder (st : EngineState) (limit volume : Int) (userId : String)
    (isSelling : Bool) : EngineState × Option Nat :=
  let o : Order :=
    { id := st.nextId, limit := limit, originalVolume := volume,
      currentVolume := volume, isSelling := isSelling,
      status := Status.unprocessed, userId := userId, created := st.nextTime }
  let st1 : EngineState :=
    { st with
        orders := st.orders ++ [o], nextId := st.nextId + 1,
        nextTime := st.nextTime + 1 }
  (matchNextOrder st1, none)

/-- `cancelOrder(orderId)` (part_000 lines 255-269): set the order's status
to `canceled`, unconditionally; it does not trigger the serializer. -/
def cancelOrder (st : EngineState) (id : Nat) : EngineState :=
  { st with orders := setStatus st.orders id Status.canceled }

/-- The engine's state-changing operations, applied atomically (the pass
serializer guarantees a single active pass). -/
inductive Op where
  | place (limit volume : Int) (userId : String) (isSelling : Bool)
  | cancel (id : Nat)
  | trigger
deriving DecidableEq, Repr

def runOp (st : EngineState) : Op → EngineState
  | .place l v u s => (placeOrder st l v u s).1
  | .cancel id => cancelOrder st id
  | .trigger => matchNextOrder st

def runOps (st : EngineState) (ops : List Op) : EngineState :=
  ops.foldl runOp st

/-- Engine state right after the constructor: empty collections, busy flag
clear (the constructor's `matchNextOrder()` call is a no-op on an empty
store). -/
def initState : EngineState :=
  { orders := [], market := [], fills := [], processing := false,
    nextId := 0, nextTime := 0 }

/-- `status` of the order with the given id, if present. -/
def statusOf (st : EngineState) (id : Nat) : Option Status :=
  (getOrder st.orders id).map Order.status

/-- Does a fill involve the given order id (as either side)? -/
def involves (f : Fill) (i : Nat) : Bool :=
  f.incomingId = i || f.counterId = i

/-- Total committed fill volume involving the order with id `i`. -/
def volumeOf (fills : List Fill) (i : Nat) : Int :=
  ((fills.filter fun f => involves f i).map Fill.volume).sum

/-- Is this fill a fill between the orders with ids `i` and `j`? -/
def betweenPair (f : Fill) (i j : Nat) : Bool :=
  (f.incomingId = i && f.counterId = j) || (f.incomingId = j && f.counterId = i)

/-- Cumulative fill volume between the orders with ids `i` and `j`. -/
def pairVolume (fills : List Fill) (i j : Nat) : Int :=
  ((fills.filter fun f => betweenPair f i j).map Fill.volume).sum

/-- The fill-arithmetic contract: committed volume is the minimum of the two
current volumes, committed price is `max` of the limits when the incoming
order sells and the incoming limit when it buys. -/
def fillOk (f : Fill) : Prop :=
  f.volume = min f.incomingVolume f.counterVolume ∧
    f.price = if f.incomingSelling then max f.incomingLimit f.counterLimit
      else f.incomingLimit

/-- `matchNextOrder` when the backing-store call inside `processOrder`
throws before any commit: `processOrder`'s own `catch` (part_000 lines
206-208) only logs — it does not clear `this.processing` (line 205 is
skipped) — so the recursive `matchNextOrder` call returns at the
`this.processing` guard and the drain stops with the flag still set. -/
def matchNextOrderPassError (st : EngineState) : EngineState :=
  if st.processing then st
  else
    let st1 : EngineState := { st with processing := true }
    match oldestUnprocessed st1.orders with
    | none => { st1 with processing := false }
    | some _ => st1

/-- `matchNextOrder` when its own `findOne` for the oldest unprocessed order
throws: the `catch` of `matchNextOrder` (part_000 lines 229-232) logs and
clears `this.processing`. -/
def matchNextOrderFetchError (st : EngineState) : EngineState :=
  if st.processing then st
  else { st with processing := false }

/-- Sort key of the counterparty query as an ascending `Int` key:
ascending `limit` when the incoming order buys, descending (negated) when
it sells. -/
def matchKey (o x : Order) : Int :=
  if o.isSelling then -x.limit else x.limit

/-- Fixture for witnesses: the spec's price-time-priority example — resting
sells priced 10, 9, 9 in creation order. -/
def exampleBook : List Order :=
  [⟨1, 10, 3, 3, true, Status.processed, "a", 1⟩,
   ⟨2, 9, 3, 3, true, Status.processed, "b", 2⟩,
   ⟨3, 9, 3, 3, true, Status.processed, "c", 3⟩]

/-- Fixture for witnesses: an incoming buy with limit 10. -/
def exampleBuy : Order :=
  ⟨4, 10, 1, 1, false, Status.unprocessed, "d", 4⟩

/-- Fixture for witnesses: a lone resting sell order about to undergo its
pass (serializer busy), with one snapshot already in the log. -/
def loneSell : Order :=
  ⟨0, 10, 5, 5, true, Status.unprocessed, "a", 0⟩

/-- Fixture for witnesses: the snapshot already in the log before the
no-fill pass. -/
def prevSnap : Snapshot :=
  ⟨some 5, some 10, none, none, some 7, some 9⟩

/-- Fixture for witnesses: the engine state in which `loneSell`'s pass
runs. -/
def lonePassState : EngineState :=
  { orders := [loneSell], market := [prevSnap], fills := [],
    processing := true, nextId := 1, nextTime := 1 }

/-- The immutable part of an order record: everything the engine never
rewrites after creation (`setVolume`/`setStatus` touch only `currentVolume`
and `status`). -/
def core (o : Order) : Nat × Int × Int × String × Bool × Nat :=
  (o.id, o.limit, o.originalVolume, o.userId, o.isSelling, o.created)

/-- Fixture for witnesses: a state with one pending order and the busy flag
clear, about to be drained. -/
def errState : EngineState :=
  { orders := [⟨0, 10, 5, 5, true, Status.unprocessed, "a", 0⟩],
    market := [], fills := [], processing := false, nextId := 1, nextTime := 1 }

/-- Fixture for witnesses: the three-sell book with the serializer busy,
as seen by the pass run on `exampleBuy`. -/
def termState : EngineState :=
  { orders := exampleBook, market := [], fills := [],
    processing := true, nextId := 5, nextTime := 5 }

/-- The legal multi-step `status` transitions of the spec's state machine:
a status may stay put, anything may leave `unprocessed`
(pending→passed, pending→canceled), and anything may enter `canceled`
(passed→canceled) — never out of `canceled`, never back to `unprocessed`
from `processed`. -/
def okTransition (s t : Status) : Prop :=
  s = t ∨ s = Status.unprocessed ∨ t = Status.canceled

/-- Everything of an order except `currentVolume` — the part `setVolume`
(hence the matching loop) never touches. -/
def core2 (o : Order) : Nat × Int × Int × Bool × Status × String × Nat :=
  (o.id, o.limit, o.originalVolume, o.isSelling, o.status, o.userId, o.created)

/-- Id discipline of reachable engine states: document ids are pairwise
distinct and below the id generator, and the fill log references only
already-assigned ids. -/
structure IdInv (st : EngineState) : Prop where
  uniq : st.orders.Pairwise fun a b => a.id ≠ b.id
  idLt : ∀ x ∈ st.orders, x.id < st.nextId
  fillIds : ∀ f ∈ st.fills, f.incomingId < st.nextId ∧ f.counterId < st.nextId

/-- Does the operation only place non-negative volume?  (`placeOrder` does
not validate, so this is a property of the call sequence, not of the
code.) -/
def opVolNonneg : Op → Bool
  | .place _ v _ _ => 0 ≤ v
  | _ => true

/-- Volume accounting of reachable engine states: volumes are non-negative
and each order's current volume is its original volume minus the total
committed fill volume naming its id. -/
structure VolInv (st : EngineState) : Prop where
  nonneg : ∀ x ∈ st.orders, 0 ≤ x.currentVolume
  acct : ∀ x ∈ st.orders,
    x.currentVolume = x.originalVolume - volumeOf st.fills x.id
  fillNonneg : ∀ f ∈ st.fills, 0 ≤ f.volume
  fillNe : ∀ f ∈ st.fills, f.incomingId ≠ f.counterId

/-- The pointwise form of one iteration's two volume updates, valid when
the two ids differ. -/
def stepFn (o m x : Order) : Order :=
  if x.id = o.id then
    { x with currentVolume := o.currentVolume - min o.currentVolume m.currentVolume }
  else if x.id = m.id then
    { x with currentVolume := m.currentVolume - min o.currentVolume m.currentVolume }
  else x

/-! ## Step equations for the matching loop -/

/-- Step equation: an iteration whose guard holds and whose query finds a
counterparty recurses on the stepped state. -/
theorem matchLoop_succ_some (fuel : Nat) (st : List Order) (fills : List Fill)
    (o : Order) (latest : Option (Int × Int)) (m : Order)
    (hg : 0 < o.currentVolume) (hm : findMatching st o = some m) :
    matchLoop (fuel + 1) st fills o latest =
      matchLoop fuel (stepOrders st o m) (fills ++ [stepFill o m])
        (stepIncoming o m) (some (stepLatest o m)) := by
  simp only [matchLoop, if_pos hg, hm]

/-- Step equation: an iteration with no counterparty breaks the loop. -/
theorem matchLoop_succ_none (fuel : Nat) (st : List Order) (fills : List Fill)
    (o : Order) (latest : Option (Int × Int))
    (hg : 0 < o.currentVolume) (hm : findMatching st o = none) :
    matchLoop (fuel + 1) st fills o latest = ⟨st, fills, o, latest, true⟩ := by
  simp only [matchLoop, if_pos hg, hm]

/-- Step equation: a run whose guard fails exits the loop. -/
theorem matchLoop_succ_stop (fuel : Nat) (st : List Order) (fills : List Fill)
    (o : Order) (latest : Option (Int × Int)) (hg : ¬ 0 < o.currentVolume) :
    matchLoop (fuel + 1) st fills o latest = ⟨st, fills, o, latest, true⟩ := by
  simp only [matchLoop, if_neg hg]

/-! ## Properties of the sorted `findOne` embedding -/

theorem pickBest_mem (better : Order → Order → Bool) (b : Order) (l : List Order) :
    pickBest better b l ∈ b :: l := by
  induction l generalizing b with
  | nil => simp [pickBest]
  | cons a t ih =>
    simp only [pickBest]
    by_cases hb : better a b = true
    · rw [if_pos hb]
      have h := ih a
      rcases List.mem_cons.mp h with h1 | h1
      · rw [h1]; exact List.mem_cons_of_mem b (List.mem_cons_self a t)
      · exact List.mem_cons_of_mem b (List.mem_cons_of_mem a h1)
    · rw [if_neg hb]
      have h := ih b
      rcases List.mem_cons.mp h with h1 | h1
      · rw [h1]; exact List.mem_cons_self b (a :: t)
      · exact List.mem_cons_of_mem b (List.mem_cons_of_mem a h1)

theorem pickBest_min (k : Order → Int) (better : Order → Order → Bool)
    (hk : ∀ x y, better x y = true ↔ k x < k y) (b : Order) (l : List Order) :
    ∀ x ∈ b :: l, k (pickBest better b l) ≤ k x := by
  induction l generalizing b with
  | nil =>
    intro x hx
    rw [List.mem_singleton] at hx
    subst hx
    simp [pickBest]
  | cons a t ih =>
    intro x hx
    simp only [pickBest]
    by_cases hb : better a b = true
    · rw [if_pos hb]
      have hab : k a < k b := (hk a b).mp hb
      have h1 := ih a
      have hra : k (pickBest better a t) ≤ k a := h1 a (List.mem_cons_self a t)
      rcases List.mem_cons.mp hx with rfl | hx1
      · omega
      · rcases List.mem_cons.mp hx1 with rfl | hx2
        · exact hra
        · exact h1 x (List.mem_cons_of_mem a hx2)
    · rw [if_neg hb]
      have hba : k b ≤ k a := by
        by_contra hcon
        exact hb ((hk a b).mpr (by omega))
      have h1 := ih b
      have hrb : k (pickBest better b t) ≤ k b := h1 b (List.mem_cons_self b t)
      rcases List.mem_cons.mp hx with rfl | hx1
      · exact hrb
      · rcases List.mem_cons.mp hx1 with rfl | hx2
        · omega
        · exact h1 x (List.mem_cons_of_mem b hx2)

theorem findOneSorted_mem {p : Order → Bool} {better : Order → Order → Bool}
    {l : List Order} {r : Order} (h : findOneSorted p better l = some r) :
    r ∈ l ∧ p r = true := by
  rcases hf : l.filter p with _ | ⟨b, rest⟩
  · simp only [findOneSorted, hf] at h
    cases h
  · simp only [findOneSorted, hf] at h
    have h2 : pickBest better b rest = r := Option.some.inj h
    have hm : pickBest better b rest ∈ b :: rest := pickBest_mem better b rest
    rw [h2] at hm
    rw [← hf] at hm
    exact ⟨List.mem_of_mem_filter hm, List.of_mem_filter hm⟩

theorem findOneSorted_min {p : Order → Bool} {better : Order → Order → Bool}
    (k : Order → Int) (hk : ∀ x y, better x y = true ↔ k x < k y)
    {l : List Order} {r : Order} (h : findOneSorted p better l = some r) :
    ∀ x ∈ l, p x = true → k r ≤ k x := by
  intro x hx hpx
  have hxf : x ∈ l.filter p := List.mem_filter.mpr ⟨hx, hpx⟩
  rcases hf : l.filter p with _ | ⟨b, rest⟩
  · rw [hf] at hxf; cases hxf
  · rw [hf] at hxf
    simp only [findOneSorted, hf] at h
    rw [← Option.some.inj h]
    exact pickBest_min k better hk b rest x hxf

/-! ## C1: price-time priority of counterparty selection -/

theorem limitBetter_key (o : Order) :
    ∀ x y, limitBetter o x y = true ↔ matchKey o x < matchKey o y := by
  intro x y
  cases h : o.isSelling <;> simp [limitBetter, matchKey, h]

theorem matchFilter_iff (o m : Order) :
    matchFilter o m = true ↔
      m.currentVolume ≠ 0 ∧ m.status ≠ Status.canceled ∧
      (if o.isSelling then o.limit ≤ m.limit else m.limit ≤ o.limit) ∧
      m.isSelling = !o.isSelling := by
  cases h : o.isSelling <;> simp [matchFilter, h, and_assoc]

/-- Counterexample to the strict-FIFO tie-break of C1: the counterparty
query sorts by `limit` only (part_000 lines 124-126) — it has no secondary
sort key on `created`, and Mongo leaves the order of documents with equal
sort keys unspecified, so which equal-priced document comes first is a
property of the collection's document order, which nothing in the program
ties to creation order.  In a collection whose document order disagrees
with creation order, the query returns the later-created of two
equal-priced eligible resting sells, although the earlier-created one is
equally eligible. -/
theorem matching_fifo_counterexample :
    findMatching
      [⟨2, 9, 3, 3, true, Status.processed, "b", 3⟩,
       ⟨1, 9, 3, 3, true, Status.processed, "a", 2⟩]
      ⟨4, 10, 1, 1, false, Status.unprocessed, "d", 4⟩ =
      some ⟨2, 9, 3, 3, true, Status.processed, "b", 3⟩ ∧
    (⟨1, 9, 3, 3, true, Status.processed, "a", 2⟩ : Order) ∈
      [(⟨2, 9, 3, 3, true, Status.processed, "b", 3⟩ : Order),
       ⟨1, 9, 3, 3, true, Status.processed, "a", 2⟩] ∧
    matchFilter ⟨4, 10, 1, 1, false, Status.unprocessed, "d", 4⟩
      ⟨1, 9, 3, 3, true, Status.processed, "a", 2⟩ = true ∧
    (⟨1, 9, 3, 3, true, Status.processed, "a", 2⟩ : Order).limit =
      (⟨2, 9, 3, 3, true, Status.processed, "b", 3⟩ : Order).limit ∧
    (⟨1, 9, 3, 3, true, Status.processed, "a", 2⟩ : Order).created <
      (⟨2, 9, 3, 3, true, Status.processed, "b", 3⟩ : Order).created := by
  decide

/-- **C1 (amended).** In every iteration of a matching pass, the
counterparty the `findOne` query of `processOrder` selects
(`findMatching`) is an eligible resting order of the opposite side (not
canceled, non-zero volume, crossing limit) and is best-priced — lowest ask
when the incoming order buys, highest bid when it sells.  Among eligible
resting orders of equal price the query guarantees no tie-break: it sorts
by `limit` only, so the choice follows the collection's document order,
which the program does not tie to `createdAt`. -/
theorem matching_price_priority (st : List Order) (o m : Order)
    (h : findMatching st o = some m) :
    (m ∈ st ∧ m.isSelling = !o.isSelling ∧ m.status ≠ Status.canceled ∧
      m.currentVolume ≠ 0 ∧
      (if o.isSelling then o.limit ≤ m.limit else m.limit ≤ o.limit)) ∧
    ∀ m' ∈ st,
      m'.isSelling = !o.isSelling → m'.status ≠ Status.canceled →
      m'.currentVolume ≠ 0 →
      (if o.isSelling then o.limit ≤ m'.limit else m'.limit ≤ o.limit) →
      (if o.isSelling then m'.limit ≤ m.limit else m.limit ≤ m'.limit) := by
  have h0 : findOneSorted (matchFilter o) (limitBetter o) st = some m := h
  obtain ⟨hmem, hp⟩ := findOneSorted_mem h0
  obtain ⟨h1, h2, h3, h4⟩ := (matchFilter_iff o m).mp hp
  refine ⟨⟨hmem, h4, h2, h1, h3⟩, ?_⟩
  intro m' hm' e1 e2 e3 e4
  have hp' : matchFilter o m' = true := (matchFilter_iff o m').mpr ⟨e3, e2, e4, e1⟩
  have hmin := findOneSorted_min (matchKey o) (limitBetter_key o) h0 m' hm' hp'
  cases hsel : o.isSelling <;> simp [matchKey, hsel] at hmin ⊢ <;> omega

/-- Witness: on the book of resting sells priced 10, 9, 9, an incoming buy
at limit 10 is matched against a price-9 sell — the best price for the
incoming side. -/
theorem matching_price_priority_witness :
    findMatching exampleBook exampleBuy =
      some ⟨2, 9, 3, 3, true, Status.processed, "b", 2⟩ ∧
    (((⟨2, 9, 3, 3, true, Status.processed, "b", 2⟩ : Order) ∈ exampleBook ∧
      (⟨2, 9, 3, 3, true, Status.processed, "b", 2⟩ : Order).isSelling =
        !exampleBuy.isSelling ∧
      (⟨2, 9, 3, 3, true, Status.processed, "b", 2⟩ : Order).status ≠
        Status.canceled ∧
      (⟨2, 9, 3, 3, true, Status.processed, "b", 2⟩ : Order).currentVolume ≠ 0 ∧
      (if exampleBuy.isSelling then
        exampleBuy.limit ≤ (⟨2, 9, 3, 3, true, Status.processed, "b", 2⟩ : Order).limit
      else
        (⟨2, 9, 3, 3, true, Status.processed, "b", 2⟩ : Order).limit ≤ exampleBuy.limit)) ∧
    ∀ m' ∈ exampleBook,
      m'.isSelling = !exampleBuy.isSelling → m'.status ≠ Status.canceled →
      m'.currentVolume ≠ 0 →
      (if exampleBuy.isSelling then exampleBuy.limit ≤ m'.limit
        else m'.limit ≤ exampleBuy.limit) →
      (if exampleBuy.isSelling then
        m'.limit ≤ (⟨2, 9, 3, 3, true, Status.processed, "b", 2⟩ : Order).limit
      else
        (⟨2, 9, 3, 3, true, Status.processed, "b", 2⟩ : Order).limit ≤ m'.limit)) :=
  ⟨by decide,
    matching_price_priority exampleBook exampleBuy
      ⟨2, 9, 3, 3, true, Status.processed, "b", 2⟩ (by decide)⟩

/-! ## C2: fill volume and price formulas -/

theorem matchLoop_fillOk (fuel : Nat) (st : List Order) (fills : List Fill)
    (o : Order) (latest : Option (Int × Int))
    (h : ∀ f ∈ fills, fillOk f) :
    ∀ f ∈ (matchLoop fuel st fills o latest).fills, fillOk f := by
  induction fuel generalizing st fills o latest with
  | zero => exact h
  | succ fuel ih =>
    simp only [matchLoop]
    by_cases hg : 0 < o.currentVolume
    · rw [if_pos hg]
      rcases hm : findMatching st o with _ | m
      · exact h
      · apply ih
        intro f hf
        rcases List.mem_append.mp hf with hf1 | hf1
        · exact h f hf1
        · rw [List.mem_singleton] at hf1
          subst hf1
          exact ⟨rfl, rfl⟩
    · rw [if_neg hg]
      exact h

theorem drainLoop_fillOk (fuel : Nat) (st : EngineState)
    (h : ∀ f ∈ st.fills, fillOk f) :
    ∀ f ∈ (drainLoop fuel st).fills, fillOk f := by
  induction fuel generalizing st with
  | zero => exact h
  | succ fuel ih =>
    simp only [drainLoop]
    by_cases hp : st.processing
    · rw [if_pos hp]; exact h
    · rw [if_neg hp]
      rcases ho : oldestUnprocessed st.orders with _ | o
    
      · exact h
      · exact ih _ (matchLoop_fillOk _ _ _ _ _ h)

theorem runOp_fillOk (st : EngineState) (op : Op)
    (h : ∀ f ∈ st.fills, fillOk f) :
    ∀ f ∈ (runOp st op).fills, fillOk f := by
  cases op with
  | place l v u s => exact drainLoop_fillOk _ _ h
  | cancel id => exact h
  | trigger => exact drainLoop_fillOk _ _ h

theorem runOps_fillOk (st : EngineState) (ops : List Op)
    (h : ∀ f ∈ st.fills, fillOk f) :
    ∀ f ∈ (runOps st ops).fills, fillOk f := by
  induction ops generalizing st with
  | nil => exact h
  | cons op rest ih => exact ih (runOp st op) (runOp_fillOk st op h)

/-- **C2.** Every fill committed by a matching pass, over any sequence of
engine operations, has volume `min(incoming.currentVolume,
counterparty.currentVolume)` and price `max(incoming.limit,
counterparty.limit)` when the incoming order sells, `incoming.limit` when
it buys (the volumes and limits being those at match time, as recorded in
the fill log). -/
theorem fill_volume_price_formula (ops : List Op) :
    ∀ f ∈ (runOps initState ops).fills,
      f.volume = min f.incomingVolume f.counterVolume ∧
      f.price = if f.incomingSelling then max f.incomingLimit f.counterLimit
        else f.incomingLimit :=
  runOps_fillOk initState ops (by intro f hf; cases hf)

/-- Witness: the spec's partial-fill example — resting sell A (limit 10,
volume 5), incoming buy B (limit 12, volume 8) — commits one fill with
volume 5 = min(8, 5) and price 12 = B.limit (incoming is a buy). -/
theorem fill_volume_price_formula_witness :
    (⟨1, 0, 8, 5, 12, 10, false, 5, 12⟩ : Fill) ∈
      (runOps initState [Op.place 10 5 "a" true, Op.place 12 8 "b" false]).fills ∧
    ((⟨1, 0, 8, 5, 12, 10, false, 5, 12⟩ : Fill).volume =
      min (⟨1, 0, 8, 5, 12, 10, false, 5, 12⟩ : Fill).incomingVolume
        (⟨1, 0, 8, 5, 12, 10, false, 5, 12⟩ : Fill).counterVolume ∧
     (⟨1, 0, 8, 5, 12, 10, false, 5, 12⟩ : Fill).price =
      if (⟨1, 0, 8, 5, 12, 10, false, 5, 12⟩ : Fill).incomingSelling then
        max (⟨1, 0, 8, 5, 12, 10, false, 5, 12⟩ : Fill).incomingLimit
          (⟨1, 0, 8, 5, 12, 10, false, 5, 12⟩ : Fill).counterLimit
      else (⟨1, 0, 8, 5, 12, 10, false, 5, 12⟩ : Fill).incomingLimit) :=
  ⟨by decide,
    fill_volume_price_formula [Op.place 10 5 "a" true, Op.place 12 8 "b" false]
      ⟨1, 0, 8, 5, 12, 10, false, 5, 12⟩ (by decide)⟩

/-! ## C5: snapshot carry-forward on a no-fill pass -/

theorem matchLoop_fills_extend (fuel : Nat) (st : List Order) (fills : List Fill)
    (o : Order) (latest : Option (Int × Int)) :
    ∃ extra, (matchLoop fuel st fills o latest).fills = fills ++ extra := by
  induction fuel generalizing st fills o latest with
  | zero => exact ⟨[], (List.append_nil fills).symm⟩
  | succ fuel ih =>
    by_cases hg : 0 < o.currentVolume
    · rcases hm : findMatching st o with _ | m
      · rw [matchLoop_succ_none fuel st fills o latest hg hm]
        exact ⟨[], (List.append_nil fills).symm⟩
      · rw [matchLoop_succ_some fuel st fills o latest m hg hm]
        obtain ⟨extra, hx⟩ := ih (stepOrders st o m) (fills ++ [stepFill o m])
          (stepIncoming o m) (some (stepLatest o m))
        refine ⟨stepFill o m :: extra, ?_⟩
        rw [hx, List.append_assoc]
        rfl
    · rw [matchLoop_succ_stop fuel st fills o latest hg]
      exact ⟨[], (List.append_nil fills).symm⟩

theorem matchLoop_latest_of_fills_eq (fuel : Nat) (st : List Order)
    (fills : List Fill) (o : Order) (latest : Option (Int × Int))
    (h : (matchLoop fuel st fills o latest).fills = fills) :
    (matchLoop fuel st fills o latest).latest = latest := by
  induction fuel generalizing st fills o latest with
  | zero => rfl
  | succ fuel ih =>
    by_cases hg : 0 < o.currentVolume
    · rcases hm : findMatching st o with _ | m
      · rw [matchLoop_succ_none fuel st fills o latest hg hm]
      · rw [matchLoop_succ_some fuel st fills o latest m hg hm] at h ⊢
        exfalso
        obtain ⟨extra, hx⟩ := matchLoop_fills_extend fuel (stepOrders st o m)
          (fills ++ [stepFill o m]) (stepIncoming o m) (some (stepLatest o m))
        rw [hx] at h
        have hlen := congrArg List.length h
        simp at hlen
    · rw [matchLoop_succ_stop fuel st fills o latest hg]

/-- **C5.** A matching pass that commits no fill (the fill log is unchanged
by the pass's loop) appends a `MarketData` snapshot whose `matchVolume` and
`matchPrice` equal the previous snapshot's values, whenever a previous
snapshot exists — not empty or zero values. -/
theorem snapshot_carry_forward (st : EngineState) (o : Order)
    (prev : Snapshot) (rest : List Snapshot)
    (hnf : (matchLoopOf st o).fills = st.fills)
    (hm : st.market = prev :: rest) :
    ∃ snap rest2, (processOrder st o).market = snap :: rest2 ∧
      snap.matchVolume = prev.matchVolume ∧ snap.matchPrice = prev.matchPrice := by
  have hlat : (matchLoopOf st o).latest = none :=
    matchLoop_latest_of_fills_eq _ _ _ _ _ hnf
  refine ⟨mkSnapshot (setStatus (matchLoopOf st o).orders o.id Status.processed)
    (matchLoopOf st o).latest st.market.head?, st.market, rfl, ?_, ?_⟩ <;>
    simp [mkSnapshot, hlat, hm]

/-- Witness: a lone resting sell with no crossing counterparty undergoes a
pass; the appended snapshot carries the previous snapshot's match volume 7
and match price 9 forward. -/
theorem snapshot_carry_forward_witness :
    ((matchLoopOf lonePassState loneSell).fills = lonePassState.fills ∧
      lonePassState.market = prevSnap :: []) ∧
    (∃ snap rest2, (processOrder lonePassState loneSell).market = snap :: rest2 ∧
      snap.matchVolume = prevSnap.matchVolume ∧
      snap.matchPrice = prevSnap.matchPrice) :=
  ⟨⟨by decide, by decide⟩,
    snapshot_carry_forward lonePassState loneSell prevSnap [] (by decide) (by decide)⟩

/-! ## C7: error containment in the drain -/

/-- Counterexample to the claim that an internal error during a drain
clears the serializer's busy flag: with one pending order and the flag
clear, a drain in which the pass's first backing-store call throws ends
with `processing = true` — `processOrder`'s catch (part_000 lines 206-208)
only logs, line 205 is skipped, and the recursive `matchNextOrder` returns
at the busy guard.  The flag is never cleared afterwards. -/
theorem pass_error_flag_not_cleared :
    errState.processing = false ∧
    (matchNextOrderPassError errState).processing = true := by
  exact ⟨rfl, by decide⟩

/-- **C7 (amended).** On an internal error during a drain the drain stops,
nothing beyond the last-committed state is written (orders, fills and
market log are unchanged when the error strikes before any commit), and no
error propagates to the caller; the busy flag is cleared when the error
occurs in the drain dispatcher itself (`matchNextOrder`'s catch, part_000
lines 229-232), but an error inside a matching pass (`processOrder`'s
catch, lines 206-208) leaves the busy flag set. -/
theorem drain_error_containment (st : EngineState) (h : st.processing = false) :
    ((matchNextOrderFetchError st).processing = false ∧
      (matchNextOrderFetchError st).orders = st.orders ∧
      (matchNextOrderFetchError st).fills = st.fills ∧
      (matchNextOrderFetchError st).market = st.market) ∧
    ((matchNextOrderPassError st).orders = st.orders ∧
      (matchNextOrderPassError st).fills = st.fills ∧
      (matchNextOrderPassError st).market = st.market) ∧
    (∀ o, oldestUnprocessed st.orders = some o →
      (matchNextOrderPassError st).processing = true) := by
  cases ho : oldestUnprocessed st.orders <;>
    simp [matchNextOrderFetchError, matchNextOrderPassError, h, ho]

/-- Witness: the containment theorem at the one-pending-order state. -/
theorem drain_error_containment_witness :
    errState.processing = false ∧
    (((matchNextOrderFetchError errState).processing = false ∧
      (matchNextOrderFetchError errState).orders = errState.orders ∧
      (matchNextOrderFetchError errState).fills = errState.fills ∧
      (matchNextOrderFetchError errState).market = errState.market) ∧
    ((matchNextOrderPassError errState).orders = errState.orders ∧
      (matchNextOrderPassError errState).fills = errState.fills ∧
      (matchNextOrderPassError errState).market = errState.market) ∧
    (∀ o, oldestUnprocessed errState.orders = some o →
      (matchNextOrderPassError errState).processing = true)) :=
  ⟨rfl, drain_error_containment errState rfl⟩

/-! ## C8/C9: placeOrder validation and return value -/

/-- Counterexample to the claim that `placeOrder` validates its input:
`placeOrder(-1, -1, "u", false)` creates an order record with
`limit = originalVolume = currentVolume = -1` and surfaces no error. -/
theorem place_order_no_validation :
    ((placeOrder initState (-1) (-1) "u" false).1).orders =
      [⟨0, -1, -1, -1, false, Status.processed, "u", 0⟩] := by
  decide

theorem map_core_setVolume (st : List Order) (id : Nat) (v : Int) :
    (setVolume st id v).map core = st.map core := by
  simp only [setVolume, List.map_map]
  apply List.map_congr_left
  intro x _
  by_cases hx : x.id = id <;> simp [core, Function.comp, hx]

theorem map_core_setStatus (st : List Order) (id : Nat) (s : Status) :
    (setStatus st id s).map core = st.map core := by
  simp only [setStatus, List.map_map]
  apply List.map_congr_left
  intro x _
  by_cases hx : x.id = id <;> simp [core, Function.comp, hx]

theorem map_core_matchLoop (fuel : Nat) (st : List Order) (fills : List Fill)
    (o : Order) (latest : Option (Int × Int)) :
    (matchLoop fuel st fills o latest).orders.map core = st.map core := by
  induction fuel generalizing st fills o latest with
  | zero => rfl
  | succ fuel ih =>
    by_cases hg : 0 < o.currentVolume
    · rcases hm : findMatching st o with _ | m
      · rw [matchLoop_succ_none fuel st fills o latest hg hm]
      · rw [matchLoop_succ_some fuel st fills o latest m hg hm]
        rw [ih]
        simp only [stepOrders, map_core_setVolume]
    · rw [matchLoop_succ_stop fuel st fills o latest hg]

theorem map_core_processOrder (st : EngineState) (o : Order) :
    (processOrder st o).orders.map core = st.orders.map core := by
  show (setStatus (matchLoopOf st o).orders o.id Status.processed).map core =
    st.orders.map core
  rw [map_core_setStatus, matchLoopOf, map_core_matchLoop]

theorem map_core_drainLoop (fuel : Nat) (st : EngineState) :
    (drainLoop fuel st).orders.map core = st.orders.map core := by
  induction fuel generalizing st with
  | zero => rfl
  | succ fuel ih =>
    simp only [drainLoop]
    by_cases hp : st.processing
    · rw [if_pos hp]
    · rw [if_neg hp]
      rcases ho : oldestUnprocessed st.orders with _ | o
      · rfl
      · rw [ih, map_core_processOrder]

/-- **C8 (amended).** `placeOrder` performs no input validation: a call
with `limitPrice ≤ 0` or `volume ≤ 0` creates an Order record carrying
exactly the given limit, volume, owner and side (no ValidationError exists
in the code — all errors are swallowed by its catch). -/
theorem place_order_never_validates (st : EngineState) (l v : Int)
    (u : String) (s : Bool) (_hbad : l ≤ 0 ∨ v ≤ 0) :
    ∃ o ∈ ((placeOrder st l v u s).1).orders,
      o.id = st.nextId ∧ o.limit = l ∧ o.originalVolume = v ∧
      o.userId = u ∧ o.isSelling = s := by
  have hmap : ((placeOrder st l v u s).1).orders.map core =
      (st.orders ++ [(⟨st.nextId, l, v, v, s, Status.unprocessed, u, st.nextTime⟩ : Order)]).map core :=
    map_core_drainLoop _ _
  have hmem : core (⟨st.nextId, l, v, v, s, Status.unprocessed, u, st.nextTime⟩ : Order) ∈
      ((placeOrder st l v u s).1).orders.map core := by
    rw [hmap]
    exact List.mem_map_of_mem core (List.mem_append_right _ (List.mem_singleton_self _))
  obtain ⟨o, ho, hcore⟩ := List.mem_map.mp hmem
  refine ⟨o, ho, ?_⟩
  simp only [core, Prod.mk.injEq] at hcore
  exact ⟨hcore.1, hcore.2.1, hcore.2.2.1, hcore.2.2.2.1, hcore.2.2.2.2.1⟩

/-- Witness: `placeOrder(-1, -1)` creates the record. -/
theorem place_order_never_validates_witness :
    ((-1 : Int) ≤ 0 ∨ (-1 : Int) ≤ 0) ∧
    ∃ o ∈ ((placeOrder initState (-1) (-1) "u" false).1).orders,
      o.id = initState.nextId ∧ o.limit = -1 ∧ o.originalVolume = -1 ∧
      o.userId = "u" ∧ o.isSelling = false :=
  ⟨Or.inl (by decide),
    place_order_never_validates initState (-1) (-1) "u" false (Or.inl (by decide))⟩

/-- Counterexample to the claim that `placeOrder` returns the created
order's id: at a valid input it creates a record with id 0 yet returns
nothing (the JS function has no return statement, so the caller gets
`undefined`). -/
theorem place_order_returns_nothing :
    (placeOrder initState 10 5 "u" false).2 = none ∧
    ∃ o ∈ ((placeOrder initState 10 5 "u" false).1).orders, o.id = 0 := by
  exact ⟨rfl, by decide⟩

/-- **C9 (amended).** For every input, `placeOrder` creates an Order record
carrying the freshly assigned id, but returns nothing (`undefined`) to the
caller instead of that id. -/
theorem place_order_creates_but_returns_none (st : EngineState) (l v : Int)
    (u : String) (s : Bool) :
    (placeOrder st l v u s).2 = none ∧
    ∃ o ∈ ((placeOrder st l v u s).1).orders, o.id = st.nextId := by
  constructor
  · rfl
  · have hmap : ((placeOrder st l v u s).1).orders.map core =
        (st.orders ++ [(⟨st.nextId, l, v, v, s, Status.unprocessed, u, st.nextTime⟩ : Order)]).map core :=
      map_core_drainLoop _ _
    have hmem : core (⟨st.nextId, l, v, v, s, Status.unprocessed, u, st.nextTime⟩ : Order) ∈
        ((placeOrder st l v u s).1).orders.map core := by
      rw [hmap]
      exact List.mem_map_of_mem core (List.mem_append_right _ (List.mem_singleton_self _))
    obtain ⟨o, ho, hcore⟩ := List.mem_map.mp hmem
    refine ⟨o, ho, ?_⟩
    simp only [core, Prod.mk.injEq] at hcore
    exact hcore.1

/-! ## C10: termination of the matching loop -/

theorem matchLoop_done_of_nonpos (fuel : Nat) (st : List Order) (fills : List Fill)
    (o : Order) (latest : Option (Int × Int)) (h : o.currentVolume ≤ 0) :
    (matchLoop fuel st fills o latest).completed = true := by
  cases fuel with
  | zero => simpa [matchLoop] using h
  | succ fuel => rw [matchLoop_succ_stop fuel st fills o latest (by omega)]

theorem countP_map_le (q : Order → Bool) (f : Order → Order) (st : List Order)
    (h : ∀ x ∈ st, q (f x) = true → q x = true) :
    (st.map f).countP q ≤ st.countP q := by
  induction st with
  | nil => simp
  | cons a t ih =>
    simp only [List.map_cons, List.countP_cons]
    have hle := ih fun x hx => h x (List.mem_cons_of_mem a hx)
    by_cases ha : q (f a) = true
    · rw [if_pos ha, if_pos (h a (List.mem_cons_self a t) ha)]
      omega
    · rw [if_neg ha]
      split <;> omega

theorem countP_map_lt (q : Order → Bool) (f : Order → Order) (st : List Order)
    (m : Order) (hm : m ∈ st)
    (h : ∀ x ∈ st, q (f x) = true → q x = true)
    (h2 : q m = true) (h3 : q (f m) = false) :
    (st.map f).countP q < st.countP q := by
  induction st with
  | nil => cases hm
  | cons a t ih =>
    simp only [List.map_cons, List.countP_cons]
    rcases List.mem_cons.mp hm with rfl | hmt
    · rw [if_neg (by simp [h3]), if_pos h2]
      have hle := countP_map_le q f t fun x hx => h x (List.mem_cons_of_mem _ hx)
      omega
    · have hlt := ih hmt fun x hx => h x (List.mem_cons_of_mem a hx)
      by_cases ha : q (f a) = true
      · rw [if_pos ha, if_pos (h a (List.mem_cons_self a t) ha)]
        omega
      · rw [if_neg ha]
        split <;> omega

theorem getOrder_eq_of_mem (st : List Order) (x : Order)
    (huniq : st.Pairwise fun a b => a.id ≠ b.id) (hx : x ∈ st) :
    getOrder st x.id = some x := by
  induction st with
  | nil => cases hx
  | cons a t ih =>
    obtain ⟨hHead, hTail⟩ := List.pairwise_cons.mp huniq
    rcases List.mem_cons.mp hx with rfl | hxt
    · simp [getOrder]
    · have hne : ¬ (a.id = x.id) := hHead x hxt
      simp only [getOrder] at ih ⊢
      rw [List.find?_cons_of_neg _ (by simp [hne])]
      exact ih hTail hxt

theorem mem_id_unique (st : List Order)
    (huniq : st.Pairwise fun a b => a.id ≠ b.id) (x y : Order)
    (hx : x ∈ st) (hy : y ∈ st) (hid : x.id = y.id) : x = y := by
  have h1 := getOrder_eq_of_mem st x huniq hx
  have h2 := getOrder_eq_of_mem st y huniq hy
  rw [hid] at h1
  rw [h1] at h2
  exact Option.some.inj h2

theorem pairwise_id_map (st : List Order) (f : Order → Order)
    (hid : ∀ x, (f x).id = x.id)
    (h : st.Pairwise fun a b => a.id ≠ b.id) :
    (st.map f).Pairwise fun a b => a.id ≠ b.id := by
  rw [List.pairwise_map]
  refine h.imp ?_
  intro a b hab
  rw [hid, hid]
  exact hab

/-- The per-document effect of one iteration's two volume updates. -/
theorem stepOrders_eq_map (st : List Order) (o m : Order) :
    stepOrders st o m = st.map fun x =>
      let y := if x.id = o.id then
        { x with currentVolume := o.currentVolume - min o.currentVolume m.currentVolume }
        else x
      if y.id = m.id then
        { y with currentVolume := m.currentVolume - min o.currentVolume m.currentVolume }
        else y := by
  simp only [stepOrders, setVolume, List.map_map]
  rfl

/-- With distinct ids, one iteration's two volume updates act pointwise:
the incoming order's document gets the incoming decrement, the
counterparty's document the counterparty decrement, all others are
untouched. -/
theorem stepOrders_apply (st : List Order) (o m : Order) (hne : o.id ≠ m.id) :
    stepOrders st o m = st.map fun x =>
      if x.id = o.id then
        { x with currentVolume := o.currentVolume - min o.currentVolume m.currentVolume }
      else if x.id = m.id then
        { x with currentVolume := m.currentVolume - min o.currentVolume m.currentVolume }
      else x := by
  have hne2 : m.id ≠ o.id := fun h => hne h.symm
  rw [stepOrders_eq_map]
  apply List.map_congr_left
  intro x _
  by_cases h1 : x.id = o.id
  · have h2 : ¬ (x.id = m.id) := by rw [h1]; exact hne
    simp [h1, h2, hne, hne2]
  · by_cases h2 : x.id = m.id
    · simp [h1, h2, hne, hne2]
    · simp [h1, h2, hne, hne2]

theorem matchLoop_terminates (fuel : Nat) (st : List Order) (fills : List Fill)
    (o : Order) (latest : Option (Int × Int))
    (hfuel : st.countP (fun x => x.currentVolume ≠ 0) < fuel)
    (huniq : st.Pairwise fun a b => a.id ≠ b.id)
    (hsync : ∀ x ∈ st, x.id = o.id → x.currentVolume = o.currentVolume)
    (hnn : ∀ x ∈ st, 0 ≤ x.currentVolume) (hno : 0 ≤ o.currentVolume) :
    (matchLoop fuel st fills o latest).completed = true := by
  induction fuel generalizing st fills o latest with
  | zero => omega
  | succ fuel ih =>
    by_cases hg : 0 < o.currentVolume
    · rcases hm : findMatching st o with _ | m
      · rw [matchLoop_succ_none fuel st fills o latest hg hm]
      · rw [matchLoop_succ_some fuel st fills o latest m hg hm]
        have hm0 : findOneSorted (matchFilter o) (limitBetter o) st = some m := hm
        obtain ⟨hmem, hp⟩ := findOneSorted_mem hm0
        obtain ⟨hv0, hstc, hcross, hside⟩ := (matchFilter_iff o m).mp hp
        have hmnn : 0 ≤ m.currentVolume := hnn m hmem
        have hminle : min o.currentVolume m.currentVolume ≤ o.currentVolume :=
          min_le_left _ _
        have hminle2 : min o.currentVolume m.currentVolume ≤ m.currentVolume :=
          min_le_right _ _
        by_cases hcase : o.currentVolume ≤ m.currentVolume
        · apply matchLoop_done_of_nonpos
          have := min_eq_left hcase
          simp only [stepIncoming]
          omega
        · push_neg at hcase
          have hneid : m.id ≠ o.id := by
            intro hid
            have := hsync m hmem hid
            omega
          have hneid2 : o.id ≠ m.id := fun h => hneid h.symm
          have hminv : min o.currentVolume m.currentVolume = m.currentVolume :=
            min_eq_right (le_of_lt hcase)
          rw [stepOrders_apply st o m hneid2]
          set f : Order → Order := fun x =>
            if x.id = o.id then
              { x with currentVolume := o.currentVolume - min o.currentVolume m.currentVolume }
            else if x.id = m.id then
              { x with currentVolume := m.currentVolume - min o.currentVolume m.currentVolume }
            else x with hf
          have hfid : ∀ x, (f x).id = x.id := by
            intro x
            rw [hf]
            by_cases h1 : x.id = o.id
            · simp [h1, hneid, hneid2]
            · by_cases h2 : x.id = m.id <;> simp [h1, h2, hneid, hneid2]
          have hfo : ∀ x : Order, x.id = o.id → (f x).currentVolume =
              o.currentVolume - min o.currentVolume m.currentVolume := by
            intro x h1
            rw [hf]
            simp [h1, hneid, hneid2]
          have hfm : ∀ x : Order, x.id ≠ o.id → x.id = m.id → (f x).currentVolume =
              m.currentVolume - min o.currentVolume m.currentVolume := by
            intro x h1 h2
            rw [hf]
            simp [h1, h2, hneid, hneid2]
          have hfe : ∀ x : Order, x.id ≠ o.id → x.id ≠ m.id → f x = x := by
            intro x h1 h2
            rw [hf]
            simp [h1, h2, hneid, hneid2]
          have hfmv : (f m).currentVolume = 0 := by
            rw [hfm m hneid rfl, hminv]
            omega
          have hnoflip : ∀ x ∈ st, (decide ((f x).currentVolume ≠ 0)) = true →
              (decide (x.currentVolume ≠ 0)) = true := by
            intro x hx hq
            rw [decide_eq_true_eq] at hq ⊢
            intro hx0
            apply hq
            by_cases h1 : x.id = o.id
            · exfalso
              have := hsync x hx h1
              omega
            · by_cases h2 : x.id = m.id
              · exfalso
                have hxm := mem_id_unique st huniq x m hx hmem h2
                rw [hxm] at hx0
                exact hv0 hx0
              · rw [hfe x h1 h2]
                exact hx0
          apply ih
          · have hlt := countP_map_lt (fun x => decide (x.currentVolume ≠ 0)) f st m
              hmem hnoflip (by rw [decide_eq_true_eq]; exact hv0)
              (by simp [hfmv])
            have hle : List.countP (fun x => decide (x.currentVolume ≠ 0)) st ≤ fuel := by
              omega
            omega
          · exact pairwise_id_map st f hfid huniq
          · intro x hx hxid
            obtain ⟨x0, hx0, rfl⟩ := List.mem_map.mp hx
            rw [hfid] at hxid
            have hx1 : x0.id = o.id := hxid
            rw [hfo x0 hx1]
            rfl
          · intro x hx
            obtain ⟨x0, hx0, rfl⟩ := List.mem_map.mp hx
            by_cases h1 : x0.id = o.id
            · rw [hfo x0 h1]
              omega
            · by_cases h2 : x0.id = m.id
              · rw [hfm x0 h1 h2, hminv]
                omega
              · rw [hfe x0 h1 h2]
                exact hnn x0 hx0
          · simp only [stepIncoming]
            omega
    · exact matchLoop_done_of_nonpos _ _ _ _ _ (by omega)

/-- **C10.** For every incoming order and every finite order store in which
non-zero stored volume is faithfully testable (the `$ne: '0'` filter, here
the canonical embedding `currentVolume ≠ 0`), ids are unique, the store's
copy of the incoming order agrees with the in-memory read, and all volumes
are non-negative, the matching loop of `processOrder` terminates within the
`length + 1` fuel used by `matchLoopOf`: each iteration either zeroes the
incoming order's volume, zeroes the selected counterparty's stored volume,
or breaks because no counterparty exists. -/
theorem matching_loop_terminates (est : EngineState) (o : Order)
    (huniq : est.orders.Pairwise fun a b => a.id ≠ b.id)
    (hsync : ∀ x ∈ est.orders, x.id = o.id → x.currentVolume = o.currentVolume)
    (hnn : ∀ x ∈ est.orders, 0 ≤ x.currentVolume) (hno : 0 ≤ o.currentVolume) :
    (matchLoopOf est o).completed = true :=
  matchLoop_terminates _ _ _ _ _
    (Nat.lt_succ_of_le (List.countP_le_length _)) huniq hsync hnn hno

/-- Witness: the loop terminates on the three-sell book with the incoming
buy of the price-time example. -/
theorem matching_loop_terminates_witness :
    ((exampleBook.Pairwise fun a b => a.id ≠ b.id) ∧
      (∀ x ∈ exampleBook, x.id = exampleBuy.id →
        x.currentVolume = exampleBuy.currentVolume) ∧
      (∀ x ∈ exampleBook, 0 ≤ x.currentVolume) ∧ 0 ≤ exampleBuy.currentVolume) ∧
    (matchLoopOf termState exampleBuy).completed = true :=
  ⟨⟨by decide, by decide, by decide, by decide⟩,
    matching_loop_terminates termState exampleBuy
      (by decide) (by decide) (by decide) (by decide)⟩

/-! ## C4: the status state machine -/

theorem okTransition_trans {s u t : Status} (h1 : okTransition s u)
    (h2 : okTransition u t) : okTransition s t := by
  rcases h1 with rfl | h1 | h1
  · exact h2
  · exact Or.inr (Or.inl h1)
  · subst h1
    rcases h2 with h2 | h2 | h2
    · exact Or.inr (Or.inr h2.symm)
    · cases h2
    · exact Or.inr (Or.inr h2)

theorem getOrder_map_of_id_preserving (st : List Order) (f : Order → Order)
    (hid : ∀ x, (f x).id = x.id) (id : Nat) :
    getOrder (st.map f) id = (getOrder st id).map f := by
  simp only [getOrder, List.find?_map]
  have hp : ((fun x : Order => decide (x.id = id)) ∘ f) =
      fun x : Order => decide (x.id = id) := by
    funext x
    simp [Function.comp, hid]
  rw [hp]

theorem map_core2_setVolume (st : List Order) (id : Nat) (v : Int) :
    (setVolume st id v).map core2 = st.map core2 := by
  simp only [setVolume, List.map_map]
  apply List.map_congr_left
  intro x _
  by_cases hx : x.id = id <;> simp [core2, Function.comp, hx]

theorem map_core2_matchLoop (fuel : Nat) (st : List Order) (fills : List Fill)
    (o : Order) (latest : Option (Int × Int)) :
    (matchLoop fuel st fills o latest).orders.map core2 = st.map core2 := by
  induction fuel generalizing st fills o latest with
  | zero => rfl
  | succ fuel ih =>
    by_cases hg : 0 < o.currentVolume
    · rcases hm : findMatching st o with _ | m
      · rw [matchLoop_succ_none fuel st fills o latest hg hm]
      · rw [matchLoop_succ_some fuel st fills o latest m hg hm, ih]
        simp only [stepOrders, map_core2_setVolume]
    · rw [matchLoop_succ_stop fuel st fills o latest hg]

theorem status_find_of_core2 (st1 st2 : List Order)
    (h : st1.map core2 = st2.map core2) (id : Nat) :
    (getOrder st1 id).map Order.status = (getOrder st2 id).map Order.status := by
  induction st1 generalizing st2 with
  | nil =>
    cases st2 with
    | nil => rfl
    | cons b t2 => simp at h
  | cons a t1 ih =>
    cases st2 with
    | nil => simp at h
    | cons b t2 =>
      simp only [List.map_cons, List.cons.injEq] at h
      obtain ⟨hab, ht⟩ := h
      simp only [core2, Prod.mk.injEq] at hab
      obtain ⟨hid, _, _, _, hstat, _, _⟩ := hab
      simp only [getOrder]
      by_cases hcase : a.id = id
      · rw [List.find?_cons_of_pos _ (by simp [hcase]),
          List.find?_cons_of_pos _ (by simp [← hid, hcase])]
        simp [hstat]
      · rw [List.find?_cons_of_neg _ (by simp [hcase]),
          List.find?_cons_of_neg _ (by simp [← hid, hcase])]
        exact ih t2 ht

theorem ids_eq_of_map_core2 (st1 st2 : List Order)
    (h : st1.map core2 = st2.map core2) :
    (st1.map fun x => x.id) = st2.map fun x => x.id := by
  have h2 := congrArg (List.map Prod.fst) h
  simpa [List.map_map, Function.comp, core2] using h2

theorem pairwise_id_of_ids_eq (st1 st2 : List Order)
    (h : (st1.map fun x => x.id) = st2.map fun x => x.id)
    (hp : st2.Pairwise fun a b => a.id ≠ b.id) :
    st1.Pairwise fun a b => a.id ≠ b.id := by
  have h2 : (st2.map fun x => x.id).Pairwise fun a b => a ≠ b := by
    rw [List.pairwise_map]
    exact hp
  rw [← h] at h2
  rw [List.pairwise_map] at h2
  exact h2

theorem idLt_of_ids_eq (st1 st2 : List Order) (n : Nat)
    (h : (st1.map fun x => x.id) = st2.map fun x => x.id)
    (hp : ∀ x ∈ st2, x.id < n) :
    ∀ x ∈ st1, x.id < n := by
  intro x hx
  have hmem : x.id ∈ st2.map fun x => x.id := by
    rw [← h]
    exact List.mem_map_of_mem _ hx
  obtain ⟨y, hy, hxy⟩ := List.mem_map.mp hmem
  rw [← hxy]
  exact hp y hy

theorem mem_core2_transfer (st1 st2 : List Order)
    (h : st1.map core2 = st2.map core2) (x : Order) (hx : x ∈ st1) :
    ∃ y ∈ st2, y.id = x.id ∧ y.status = x.status := by
  have hmem : core2 x ∈ st2.map core2 := by
    rw [← h]
    exact List.mem_map_of_mem _ hx
  obtain ⟨y, hy, hxy⟩ := List.mem_map.mp hmem
  simp only [core2, Prod.mk.injEq] at hxy
  exact ⟨y, hy, hxy.1, hxy.2.2.2.2.1⟩

theorem ids_map_of_id_preserving (l : List Order) (f : Order → Order)
    (hid : ∀ x, (f x).id = x.id) :
    ((l.map f).map fun x => x.id) = l.map fun x => x.id := by
  simp only [List.map_map]
  apply List.map_congr_left
  intro x _
  simp [Function.comp, hid]

theorem statusOf_setStatus (l : List Order) (id0 : Nat) (s0 : Status) (id : Nat) :
    (getOrder (setStatus l id0 s0) id).map Order.status =
      (getOrder l id).map fun x => if x.id = id0 then s0 else x.status := by
  simp only [setStatus]
  rw [getOrder_map_of_id_preserving]
  · rw [Option.map_map]
    cases hx : getOrder l id with
    | none => rfl
    | some x =>
      by_cases h : x.id = id0 <;> simp [Function.comp, h]
  · intro x
    by_cases hx : x.id = id0 <;> simp [hx]

theorem processOrder_statusOf (st : EngineState) (o : Order) (id : Nat) (s : Status)
    (hs : statusOf st id = some s) :
    statusOf (processOrder st o) id =
      some (if id = o.id then Status.processed else s) := by
  have hcore : (matchLoopOf st o).orders.map core2 = st.orders.map core2 :=
    map_core2_matchLoop _ _ _ _ _
  have hmid : (getOrder (matchLoopOf st o).orders id).map Order.status =
      (getOrder st.orders id).map Order.status :=
    status_find_of_core2 _ _ hcore id
  show (getOrder (setStatus (matchLoopOf st o).orders o.id Status.processed) id).map
    Order.status = some (if id = o.id then Status.processed else s)
  rw [statusOf_setStatus]
  cases hx : getOrder (matchLoopOf st o).orders id with
  | none =>
    rw [hx] at hmid
    unfold statusOf at hs
    rw [← hmid] at hs
    cases hs
  | some x =>
    rw [hx] at hmid
    unfold statusOf at hs
    rw [← hmid] at hs
    have hxid : x.id = id := by
      have h2 := List.find?_some hx
      simpa using h2
    have hxs : x.status = s := by simpa using hs
    by_cases hio : id = o.id
    · simp [hxid, hio]
    · simp [hxid, hio, hxs]

theorem cancelOrder_statusOf (st : EngineState) (id0 id : Nat) (s : Status)
    (hs : statusOf st id = some s) :
    statusOf (cancelOrder st id0) id =
      some (if id = id0 then Status.canceled else s) := by
  show (getOrder (setStatus st.orders id0 Status.canceled) id).map Order.status =
    some (if id = id0 then Status.canceled else s)
  rw [statusOf_setStatus]
  cases hx : getOrder st.orders id with
  | none =>
    unfold statusOf at hs
    rw [hx] at hs
    cases hs
  | some x =>
    unfold statusOf at hs
    rw [hx] at hs
    have hxid : x.id = id := by
      have h2 := List.find?_some hx
      simpa using h2
    have hxs : x.status = s := by simpa using hs
    by_cases hio : id = id0
    · simp [hxid, hio]
    · simp [hxid, hio, hxs]

theorem matchLoop_new_fills (fuel : Nat) (st : List Order) (fills : List Fill)
    (o : Order) (latest : Option (Int × Int)) :
    ∀ f ∈ (matchLoop fuel st fills o latest).fills, f ∈ fills ∨
      (f.incomingId = o.id ∧
        ∃ x ∈ st, f.counterId = x.id ∧ x.status ≠ Status.canceled) := by
  induction fuel generalizing st fills o latest with
  | zero => intro f hf; exact Or.inl hf
  | succ fuel ih =>
    by_cases hg : 0 < o.currentVolume
    · rcases hm : findMatching st o with _ | m
      · rw [matchLoop_succ_none fuel st fills o latest hg hm]
        intro f hf
        exact Or.inl hf
      · rw [matchLoop_succ_some fuel st fills o latest m hg hm]
        have hm0 : findOneSorted (matchFilter o) (limitBetter o) st = some m := hm
        obtain ⟨hmem, hp⟩ := findOneSorted_mem hm0
        obtain ⟨hv0, hstc, hcross, hside⟩ := (matchFilter_iff o m).mp hp
        intro f hf
        rcases ih (stepOrders st o m) (fills ++ [stepFill o m]) (stepIncoming o m)
          (some (stepLatest o m)) f hf with h | h
        · rcases List.mem_append.mp h with h1 | h1
          · exact Or.inl h1
          · rw [List.mem_singleton] at h1
            subst h1
            exact Or.inr ⟨rfl, m, hmem, rfl, hstc⟩
        · obtain ⟨hfi, x, hx, hfc, hxs⟩ := h
          have hcore : (stepOrders st o m).map core2 = st.map core2 := by
            simp only [stepOrders, map_core2_setVolume]
          obtain ⟨y, hy, hyid, hys⟩ := mem_core2_transfer _ _ hcore x hx
          refine Or.inr ⟨hfi, y, hy, ?_, ?_⟩
          · rw [hfc, hyid]
          · rw [hys]
            exact hxs
    · rw [matchLoop_succ_stop fuel st fills o latest hg]
      intro f hf
      exact Or.inl hf

theorem processOrder_IdInv (st : EngineState) (o : Order) (ho : o ∈ st.orders)
    (h : IdInv st) : IdInv (processOrder st o) := by
  have hcore : (matchLoopOf st o).orders.map core2 = st.orders.map core2 :=
    map_core2_matchLoop _ _ _ _ _
  have hids : ((processOrder st o).orders.map fun x => x.id) =
      st.orders.map fun x => x.id := by
    show (((matchLoopOf st o).orders.map fun x =>
      if x.id = o.id then { x with status := Status.processed } else x).map
        fun x => x.id) = st.orders.map fun x => x.id
    rw [ids_map_of_id_preserving _ _
      (fun x => by by_cases hx : x.id = o.id <;> simp [hx])]
    exact ids_eq_of_map_core2 _ _ hcore
  constructor
  · exact pairwise_id_of_ids_eq _ _ hids h.uniq
  · exact idLt_of_ids_eq _ _ _ hids h.idLt
  · intro f hf
    rcases matchLoop_new_fills _ _ _ _ _ f hf with h1 | h1
    · exact h.fillIds f h1
    · obtain ⟨hfi, x, hx, hfc, _⟩ := h1
      constructor
      · rw [hfi]
        exact h.idLt o ho
      · rw [hfc]
        exact h.idLt x hx

theorem drainLoop_IdInv (fuel : Nat) (st : EngineState) (h : IdInv st) :
    IdInv (drainLoop fuel st) := by
  induction fuel generalizing st with
  | zero => exact h
  | succ fuel ih =>
    simp only [drainLoop]
    by_cases hp : st.processing
    · rw [if_pos hp]
      exact h
    · rw [if_neg hp]
      rcases ho : oldestUnprocessed st.orders with _ | o
      · exact ⟨h.uniq, h.idLt, h.fillIds⟩
      · obtain ⟨hmem, _⟩ := findOneSorted_mem ho
        exact ih _ (processOrder_IdInv _ o hmem ⟨h.uniq, h.idLt, h.fillIds⟩)

theorem IdInv_place (st : EngineState) (l v : Int) (u : String) (sd : Bool)
    (h : IdInv st) :
    IdInv { st with
        orders := st.orders ++
          [(⟨st.nextId, l, v, v, sd, Status.unprocessed, u, st.nextTime⟩ : Order)],
        nextId := st.nextId + 1, nextTime := st.nextTime + 1 } := by
  constructor
  · rw [List.pairwise_append]
    refine ⟨h.uniq, List.pairwise_singleton _ _, ?_⟩
    intro a ha b hb
    rw [List.mem_singleton] at hb
    subst hb
    have := h.idLt a ha
    simp only []
    omega
  · intro x hx
    rcases List.mem_append.mp hx with h1 | h1
    · have := h.idLt x h1
      simp only []
      omega
    · rw [List.mem_singleton] at h1
      subst h1
      simp only []
      omega
  · intro f hf
    have := h.fillIds f hf
    simp only []
    omega

theorem runOp_IdInv (st : EngineState) (op : Op) (h : IdInv st) :
    IdInv (runOp st op) := by
  cases op with
  | place l v u sd => exact drainLoop_IdInv _ _ (IdInv_place st l v u sd h)
  | cancel id =>
    constructor
    · apply pairwise_id_of_ids_eq _ st.orders _ h.uniq
      exact ids_map_of_id_preserving _ _
        (fun x => by by_cases hx : x.id = id <;> simp [hx])
    · apply idLt_of_ids_eq _ st.orders _ _ h.idLt
      exact ids_map_of_id_preserving _ _
        (fun x => by by_cases hx : x.id = id <;> simp [hx])
    · exact h.fillIds
  | trigger => exact drainLoop_IdInv _ _ h

theorem drainLoop_statusOf (fuel : Nat) (st : EngineState) (h : IdInv st)
    (id : Nat) (s : Status) (hs : statusOf st id = some s) :
    ∃ t, statusOf (drainLoop fuel st) id = some t ∧ okTransition s t := by
  induction fuel generalizing st s with
  | zero => exact ⟨s, hs, Or.inl rfl⟩
  | succ fuel ih =>
    simp only [drainLoop]
    by_cases hp : st.processing
    · rw [if_pos hp]
      exact ⟨s, hs, Or.inl rfl⟩
    · rw [if_neg hp]
      rcases ho : oldestUnprocessed st.orders with _ | o
      · exact ⟨s, hs, Or.inl rfl⟩
      · obtain ⟨hmem, hup⟩ := findOneSorted_mem ho
        have hou : o.status = Status.unprocessed := by simpa using hup
        have h1 : IdInv { st with processing := true } := ⟨h.uniq, h.idLt, h.fillIds⟩
        have hs1 : statusOf { st with processing := true } id = some s := hs
        have h2 := processOrder_statusOf { st with processing := true } o id s hs1
        have hmid : okTransition s (if id = o.id then Status.processed else s) := by
          by_cases hio : id = o.id
          · rw [if_pos hio]
        
            have hgo : getOrder st.orders o.id = some o :=
              getOrder_eq_of_mem _ o h.uniq hmem
            have hsu : s = Status.unprocessed := by
              unfold statusOf at hs
              rw [hio, hgo] at hs
              have hs2 : some o.status = some s := hs
              rw [← Option.some.inj hs2, hou]
            rw [hsu]
            exact Or.inr (Or.inl rfl)
          · rw [if_neg hio]
            exact Or.inl rfl
        obtain ⟨t, ht, hok⟩ := ih (processOrder { st with processing := true } o)
          (processOrder_IdInv _ o hmem h1) (if id = o.id then Status.processed else s) h2
        exact ⟨t, ht, okTransition_trans hmid hok⟩

theorem runOp_statusOf (st : EngineState) (h : IdInv st) (op : Op) (id : Nat)
    (s : Status) (hs : statusOf st id = some s) :
    ∃ t, statusOf (runOp st op) id = some t ∧ okTransition s t := by
  cases op with
  | place l v u sd =>
    apply drainLoop_statusOf _ _ (IdInv_place st l v u sd h)
    unfold statusOf getOrder at hs ⊢
    rcases hx : st.orders.find? (fun x => x.id = id) with _ | x
    · rw [hx] at hs
      cases hs
    · rw [hx] at hs
      rw [List.find?_append, hx]
      exact hs
  | cancel id0 =>
    refine ⟨if id = id0 then Status.canceled else s,
      cancelOrder_statusOf st id0 id s hs, ?_⟩
    by_cases hio : id = id0
    · rw [if_pos hio]
      exact Or.inr (Or.inr rfl)
    · rw [if_neg hio]
      exact Or.inl rfl
  | trigger => exact drainLoop_statusOf _ _ h id s hs

theorem runOps_IdInv (st : EngineState) (ops : List Op) (h : IdInv st) :
    IdInv (runOps st ops) := by
  induction ops generalizing st with
  | nil => exact h
  | cons op rest ih => exact ih _ (runOp_IdInv st op h)

theorem IdInv_init : IdInv initState := by
  refine ⟨List.Pairwise.nil, ?_, ?_⟩
  · intro x hx
    cases hx
  · intro f hf
    cases hf

theorem runOps_statusOf (st : EngineState) (ops : List Op) (h : IdInv st)
    (id : Nat) (s : Status) (hs : statusOf st id = some s) :
    ∃ t, statusOf (runOps st ops) id = some t ∧ okTransition s t := by
  induction ops generalizing st s with
  | nil => exact ⟨s, hs, Or.inl rfl⟩
  | cons op rest ih =>
    obtain ⟨u, hu, hok1⟩ := runOp_statusOf st h op id s hs
    obtain ⟨t, ht, hok2⟩ := ih (runOp st op) (runOp_IdInv st op h) u hu
    exact ⟨t, ht, okTransition_trans hok1 hok2⟩

/-- **C4.** Over any sequence of `placeOrder`, `cancelOrder` and
matching-pass (`trigger`) operations from the initial state, an order's
status only ever moves along unprocessed→processed, unprocessed→canceled,
or processed→canceled (`okTransition`): no order ever leaves `canceled` or
returns to `unprocessed`. -/
theorem status_transitions_legal (ops1 ops2 : List Op) (id : Nat) (s t : Status)
    (h1 : statusOf (runOps initState ops1) id = some s)
    (h2 : statusOf (runOps (runOps initState ops1) ops2) id = some t) :
    okTransition s t := by
  have hInv : IdInv (runOps initState ops1) := runOps_IdInv initState ops1 IdInv_init
  obtain ⟨t2, ht2, hok⟩ := runOps_statusOf _ ops2 hInv id s h1
  rw [h2] at ht2
  rw [Option.some.inj ht2]
  exact hok

/-- Witness: an order placed (status becomes `processed` after its pass)
and later canceled follows processed→canceled, a legal transition. -/
theorem status_transitions_legal_witness :
    statusOf (runOps initState [Op.place 10 5 "a" true]) 0 = some Status.processed ∧
    statusOf (runOps (runOps initState [Op.place 10 5 "a" true]) [Op.cancel 0]) 0 =
      some Status.canceled ∧
    okTransition Status.processed Status.canceled :=
  ⟨by decide, by decide,
    status_transitions_legal [Op.place 10 5 "a" true] [Op.cancel 0] 0
      Status.processed Status.canceled (by decide) (by decide)⟩

/-! ## C6: canceled orders are never selected as counterparty -/

theorem okTransition_canceled {t : Status}
    (h : okTransition Status.canceled t) : t = Status.canceled := by
  rcases h with h | h | h
  · exact h.symm
  · cases h
  · exact h

theorem matchLoop_fills_spec (fuel : Nat) (st : List Order) (fills : List Fill)
    (o : Order) (latest : Option (Int × Int)) :
    ∃ extra, (matchLoop fuel st fills o latest).fills = fills ++ extra ∧
      ∀ f ∈ extra, f.incomingId = o.id ∧
        ∃ x ∈ st, f.counterId = x.id ∧ x.status ≠ Status.canceled := by
  induction fuel generalizing st fills o latest with
  | zero =>
    exact ⟨[], (List.append_nil fills).symm, by intro f hf; cases hf⟩
  | succ fuel ih =>
    by_cases hg : 0 < o.currentVolume
    · rcases hm : findMatching st o with _ | m
      · rw [matchLoop_succ_none fuel st fills o latest hg hm]
        exact ⟨[], (List.append_nil fills).symm, by intro f hf; cases hf⟩
      · rw [matchLoop_succ_some fuel st fills o latest m hg hm]
        obtain ⟨hmem, hp⟩ := findOneSorted_mem
          (show findOneSorted (matchFilter o) (limitBetter o) st = some m from hm)
        obtain ⟨hv0, hstc, hcross, hside⟩ := (matchFilter_iff o m).mp hp
        obtain ⟨extra, hx, hprop⟩ := ih (stepOrders st o m) (fills ++ [stepFill o m])
          (stepIncoming o m) (some (stepLatest o m))
        refine ⟨stepFill o m :: extra, ?_, ?_⟩
        · rw [hx, List.append_assoc]
          rfl
        · intro f hf
          rcases List.mem_cons.mp hf with rfl | hf1
          · exact ⟨rfl, m, hmem, rfl, hstc⟩
          · obtain ⟨hfi, x, hx2, hfc, hxs⟩ := hprop f hf1
            have hcore : (stepOrders st o m).map core2 = st.map core2 := by
              simp only [stepOrders, map_core2_setVolume]
            obtain ⟨y, hy, hyid, hys⟩ := mem_core2_transfer _ _ hcore x hx2
            refine ⟨hfi, y, hy, ?_, ?_⟩
            · rw [hfc, hyid]
            · rw [hys]
              exact hxs
    · rw [matchLoop_succ_stop fuel st fills o latest hg]
      exact ⟨[], (List.append_nil fills).symm, by intro f hf; cases hf⟩

theorem processOrder_fills_avoid (st : EngineState) (o : Order) (id : Nat)
    (huniq : st.orders.Pairwise fun a b => a.id ≠ b.id)
    (hc : statusOf st id = some Status.canceled) :
    ∃ extra, (processOrder st o).fills = st.fills ++ extra ∧
      ∀ f ∈ extra, f.counterId ≠ id := by
  obtain ⟨extra, hx, hprop⟩ := matchLoop_fills_spec (st.orders.length + 1)
    st.orders st.fills o none
  refine ⟨extra, hx, ?_⟩
  intro f hf
  obtain ⟨_, x, hxmem, hfc, hxs⟩ := hprop f hf
  intro hfid
  cases hz : getOrder st.orders id with
  | none =>
    unfold statusOf at hc
    rw [hz] at hc
    cases hc
  | some z =>
    unfold statusOf at hc
    rw [hz] at hc
    have hzc : z.status = Status.canceled := Option.some.inj hc
    have hzid : z.id = id := by simpa using List.find?_some hz
    have hzmem : z ∈ st.orders := List.mem_of_find?_eq_some hz
    have hxz : x = z := mem_id_unique st.orders huniq x z hxmem hzmem
      (by rw [← hfc, hfid, hzid])
    rw [hxz, hzc] at hxs
    exact hxs rfl

theorem drainLoop_fills_avoid (fuel : Nat) (st : EngineState) (h : IdInv st)
    (id : Nat) (hc : statusOf st id = some Status.canceled) :
    ∃ extra, (drainLoop fuel st).fills = st.fills ++ extra ∧
      ∀ f ∈ extra, f.counterId ≠ id := by
  induction fuel generalizing st with
  | zero => exact ⟨[], (List.append_nil _).symm, by intro f hf; cases hf⟩
  | succ fuel ih =>
    simp only [drainLoop]
    by_cases hp : st.processing
    · rw [if_pos hp]
      exact ⟨[], (List.append_nil _).symm, by intro f hf; cases hf⟩
    · rw [if_neg hp]
      rcases ho : oldestUnprocessed st.orders with _ | o
      · exact ⟨[], (List.append_nil _).symm, by intro f hf; cases hf⟩
      · obtain ⟨hmem, hup⟩ := findOneSorted_mem ho
        have h1 : IdInv { st with processing := true } := ⟨h.uniq, h.idLt, h.fillIds⟩
        have hc1 : statusOf { st with processing := true } id = some Status.canceled := hc
        obtain ⟨e1, he1, hp1⟩ := processOrder_fills_avoid
          { st with processing := true } o id h1.uniq hc1
        have hneq : id ≠ o.id := by
          intro hid
          have hgo : getOrder st.orders o.id = some o :=
            getOrder_eq_of_mem _ o h.uniq hmem
          unfold statusOf at hc
          rw [hid, hgo] at hc
          have hoc : o.status = Status.canceled := Option.some.inj hc
          have hou : o.status = Status.unprocessed := by simpa using hup
          rw [hou] at hoc
          cases hoc
        have hc2 : statusOf (processOrder { st with processing := true } o) id =
            some Status.canceled := by
          have h2 := processOrder_statusOf { st with processing := true } o id
            Status.canceled hc1
          rw [if_neg hneq] at h2
          exact h2
        obtain ⟨e2, he2, hp2⟩ := ih (processOrder { st with processing := true } o)
          (processOrder_IdInv _ o hmem h1) hc2
        refine ⟨e1 ++ e2, ?_, ?_⟩
        · rw [he2, he1, List.append_assoc]
        · intro f hf
          rcases List.mem_append.mp hf with h1f | h1f
          · exact hp1 f h1f
          · exact hp2 f h1f

theorem statusOf_place_append (st : EngineState) (l v : Int) (u : String)
    (sd : Bool) (id : Nat) (s : Status) (hs : statusOf st id = some s) :
    statusOf { st with
        orders := st.orders ++
          [(⟨st.nextId, l, v, v, sd, Status.unprocessed, u, st.nextTime⟩ : Order)],
        nextId := st.nextId + 1, nextTime := st.nextTime + 1 } id = some s := by
  unfold statusOf getOrder at hs ⊢
  rcases hx : st.orders.find? (fun x => x.id = id) with _ | x
  · rw [hx] at hs
    cases hs
  · rw [hx] at hs
    show ((st.orders ++ _).find? _).map Order.status = some s
    rw [List.find?_append, hx]
    exact hs

theorem runOp_cancel_exclusion (st : EngineState) (h : IdInv st) (op : Op)
    (id : Nat) (hc : statusOf st id = some Status.canceled) :
    statusOf (runOp st op) id = some Status.canceled ∧
    ∃ extra, (runOp st op).fills = st.fills ++ extra ∧
      ∀ f ∈ extra, f.counterId ≠ id := by
  constructor
  · obtain ⟨t, ht, hok⟩ := runOp_statusOf st h op id _ hc
    rw [okTransition_canceled hok] at ht
    exact ht
  · cases op with
    | place l v u sd =>
      exact drainLoop_fills_avoid _ _ (IdInv_place st l v u sd h) id
        (statusOf_place_append st l v u sd id _ hc)
    | cancel id0 =>
      exact ⟨[], (List.append_nil _).symm, by intro f hf; cases hf⟩
    | trigger => exact drainLoop_fills_avoid _ _ h id hc

theorem runOps_cancel_exclusion (st : EngineState) (ops : List Op) (h : IdInv st)
    (id : Nat) (hc : statusOf st id = some Status.canceled) :
    ∃ extra, (runOps st ops).fills = st.fills ++ extra ∧
      ∀ f ∈ extra, f.counterId ≠ id := by
  induction ops generalizing st with
  | nil => exact ⟨[], (List.append_nil _).symm, by intro f hf; cases hf⟩
  | cons op rest ih =>
    obtain ⟨hc1, e1, he1, hp1⟩ := runOp_cancel_exclusion st h op id hc
    obtain ⟨e2, he2, hp2⟩ := ih (runOp st op) (runOp_IdInv st op h) hc1
    show ∃ extra, (runOps (runOp st op) rest).fills = st.fills ++ extra ∧
      ∀ f ∈ extra, f.counterId ≠ id
    refine ⟨e1 ++ e2, ?_, ?_⟩
    · rw [he2, he1, List.append_assoc]
    · intro f hf
      rcases List.mem_append.mp hf with h1f | h1f
      · exact hp1 f h1f
      · exact hp2 f h1f

/-- **C6.** After `cancelOrder(id)` has committed, the order with that id
is never selected as a counterparty in any subsequent matching pass: the
fill log after any further operations extends the log at cancellation
time, and every appended fill names a counterparty id different from `id`,
regardless of the canceled order's remaining volume (`findMatching`
filters `status ≠ 'canceled'`, and `canceled` is absorbing). -/
theorem canceled_never_counterparty (ops1 ops2 : List Op) (id : Nat)
    (hc : statusOf (runOps initState ops1) id = some Status.canceled) :
    ((runOps (runOps initState ops1) ops2).fills.take
        (runOps initState ops1).fills.length = (runOps initState ops1).fills) ∧
    ∀ f ∈ (runOps (runOps initState ops1) ops2).fills.drop
        (runOps initState ops1).fills.length, f.counterId ≠ id := by
  obtain ⟨extra, hx, hp⟩ := runOps_cancel_exclusion _ ops2
    (runOps_IdInv initState ops1 IdInv_init) id hc
  rw [hx]
  constructor
  · exact List.take_left _ _
  · rw [List.drop_left]
    exact hp

/-- Witness: a resting sell is canceled while still holding volume 5; a
subsequently placed crossing buy commits no fill against it. -/
theorem canceled_never_counterparty_witness :
    statusOf (runOps initState [Op.place 10 5 "a" true, Op.cancel 0]) 0 =
      some Status.canceled ∧
    (((runOps (runOps initState [Op.place 10 5 "a" true, Op.cancel 0])
          [Op.place 12 8 "b" false]).fills.take
        (runOps initState [Op.place 10 5 "a" true, Op.cancel 0]).fills.length =
        (runOps initState [Op.place 10 5 "a" true, Op.cancel 0]).fills) ∧
      ∀ f ∈ (runOps (runOps initState [Op.place 10 5 "a" true, Op.cancel 0])
          [Op.place 12 8 "b" false]).fills.drop
        (runOps initState [Op.place 10 5 "a" true, Op.cancel 0]).fills.length,
        f.counterId ≠ 0) :=
  ⟨by decide,
    canceled_never_counterparty [Op.place 10 5 "a" true, Op.cancel 0]
      [Op.place 12 8 "b" false] 0 (by decide)⟩

/-! ## C3: volume bounds and pair accounting -/

/-- Counterexample to C3 as stated over every operation sequence:
`placeOrder` performs no validation, so placing volume −5 creates an order
whose `currentVolume` is −5 < 0 in a reachable state. -/
theorem volume_invariant_counterexample :
    ∃ o ∈ (runOps initState [Op.place 10 (-5) "u" false]).orders,
      o.currentVolume < 0 := by
  decide

theorem sum_filter_nonneg (p : Fill → Bool) (fills : List Fill)
    (h : ∀ f ∈ fills, 0 ≤ f.volume) :
    0 ≤ ((fills.filter p).map Fill.volume).sum := by
  induction fills with
  | nil => simp
  | cons f t ih =>
    have ht := ih fun g hg => h g (List.mem_cons_of_mem f hg)
    by_cases hp : p f = true
    · rw [List.filter_cons_of_pos hp]
      simp only [List.map_cons, List.sum_cons]
      have := h f (List.mem_cons_self f t)
      omega
    · rw [List.filter_cons_of_neg hp]
      exact ht

theorem sum_filter_mono (p q : Fill → Bool) (fills : List Fill)
    (himp : ∀ f ∈ fills, p f = true → q f = true)
    (hnn : ∀ f ∈ fills, 0 ≤ f.volume) :
    ((fills.filter p).map Fill.volume).sum ≤
      ((fills.filter q).map Fill.volume).sum := by
  induction fills with
  | nil => simp
  | cons f t ih =>
    have ht := ih (fun g hg hp => himp g (List.mem_cons_of_mem f hg) hp)
      (fun g hg => hnn g (List.mem_cons_of_mem f hg))
    by_cases hp : p f = true
    · rw [List.filter_cons_of_pos hp,
        List.filter_cons_of_pos (himp f (List.mem_cons_self f t) hp)]
      simp only [List.map_cons, List.sum_cons]
      omega
    · rw [List.filter_cons_of_neg hp]
      by_cases hq : q f = true
      · rw [List.filter_cons_of_pos hq]
        simp only [List.map_cons, List.sum_cons]
        have := hnn f (List.mem_cons_self f t)
        omega
      · rw [List.filter_cons_of_neg hq]
        exact ht

theorem volumeOf_append_single (fills : List Fill) (f : Fill) (i : Nat) :
    volumeOf (fills ++ [f]) i =
      volumeOf fills i + (if involves f i then f.volume else 0) := by
  unfold volumeOf
  rw [List.filter_append, List.map_append, List.sum_append]
  congr 1
  by_cases h : involves f i = true
  · rw [if_pos h]
    simp [h]
  · rw [if_neg h]
    simp [h]

theorem volumeOf_fresh (fills : List Fill) (i : Nat)
    (h : ∀ f ∈ fills, involves f i = false) : volumeOf fills i = 0 := by
  unfold volumeOf
  have hnil : fills.filter (fun f => involves f i) = [] := by
    rw [List.filter_eq_nil_iff]
    intro f hf
    simp [h f hf]
  rw [hnil]
  rfl

theorem stepOrders_stepFn (st : List Order) (o m : Order) (hne : o.id ≠ m.id) :
    stepOrders st o m = st.map (stepFn o m) :=
  stepOrders_apply st o m hne

theorem stepFn_id (o m x : Order) : (stepFn o m x).id = x.id := by
  unfold stepFn
  by_cases h1 : x.id = o.id
  · rw [if_pos h1]
  · rw [if_neg h1]
    by_cases h2 : x.id = m.id
    · rw [if_pos h2]
    · rw [if_neg h2]

theorem stepFn_ov (o m x : Order) :
    (stepFn o m x).originalVolume = x.originalVolume := by
  unfold stepFn
  by_cases h1 : x.id = o.id
  · rw [if_pos h1]
  · rw [if_neg h1]
    by_cases h2 : x.id = m.id
    · rw [if_pos h2]
    · rw [if_neg h2]

theorem stepFn_selling (o m x : Order) :
    (stepFn o m x).isSelling = x.isSelling := by
  unfold stepFn
  by_cases h1 : x.id = o.id
  · rw [if_pos h1]
  · rw [if_neg h1]
    by_cases h2 : x.id = m.id
    · rw [if_pos h2]
    · rw [if_neg h2]

theorem stepFn_cv_o (o m x : Order) (h1 : x.id = o.id) :
    (stepFn o m x).currentVolume =
      o.currentVolume - min o.currentVolume m.currentVolume := by
  unfold stepFn
  rw [if_pos h1]

theorem stepFn_cv_m (o m x : Order) (h1 : ¬ x.id = o.id) (h2 : x.id = m.id) :
    (stepFn o m x).currentVolume =
      m.currentVolume - min o.currentVolume m.currentVolume := by
  unfold stepFn
  rw [if_neg h1, if_pos h2]

theorem stepFn_other (o m x : Order) (h1 : ¬ x.id = o.id) (h2 : ¬ x.id = m.id) :
    stepFn o m x = x := by
  unfold stepFn
  rw [if_neg h1, if_neg h2]

theorem matchLoop_vol_inv (fuel : Nat) (st : List Order) (fills : List Fill)
    (o : Order) (latest : Option (Int × Int))
    (huniq : st.Pairwise fun a b => a.id ≠ b.id)
    (hoS : ∀ x ∈ st, x.id = o.id → x.currentVolume = o.currentVolume ∧
      x.originalVolume = o.originalVolume ∧ x.isSelling = o.isSelling)
    (hnn : ∀ x ∈ st, 0 ≤ x.currentVolume)
    (hno : 0 ≤ o.currentVolume)
    (hacct : ∀ x ∈ st, x.currentVolume = x.originalVolume - volumeOf fills x.id)
    (hoacct : o.currentVolume = o.originalVolume - volumeOf fills o.id)
    (hfnn : ∀ f ∈ fills, 0 ≤ f.volume)
    (hfne : ∀ f ∈ fills, f.incomingId ≠ f.counterId) :
    (∀ x ∈ (matchLoop fuel st fills o latest).orders, 0 ≤ x.currentVolume) ∧
    (∀ x ∈ (matchLoop fuel st fills o latest).orders,
      x.currentVolume = x.originalVolume -
        volumeOf (matchLoop fuel st fills o latest).fills x.id) ∧
    (∀ f ∈ (matchLoop fuel st fills o latest).fills, 0 ≤ f.volume) ∧
    (∀ f ∈ (matchLoop fuel st fills o latest).fills,
      f.incomingId ≠ f.counterId) := by
  induction fuel generalizing st fills o latest with
  | zero => exact ⟨hnn, hacct, hfnn, hfne⟩
  | succ fuel ih =>
    by_cases hg : 0 < o.currentVolume
    · rcases hm : findMatching st o with _ | m
      · rw [matchLoop_succ_none fuel st fills o latest hg hm]
        exact ⟨hnn, hacct, hfnn, hfne⟩
      · rw [matchLoop_succ_some fuel st fills o latest m hg hm]
        obtain ⟨hmem, hp⟩ := findOneSorted_mem
          (show findOneSorted (matchFilter o) (limitBetter o) st = some m from hm)
        obtain ⟨hv0, hstc, hcross, hside⟩ := (matchFilter_iff o m).mp hp
        have hmnn : 0 ≤ m.currentVolume := hnn m hmem
        have hneid : o.id ≠ m.id := by
          intro hid
          obtain ⟨_, _, hsel⟩ := hoS m hmem hid.symm
          rw [hside] at hsel
          cases hob : o.isSelling <;> rw [hob] at hsel <;> cases hsel
        have hminle : min o.currentVolume m.currentVolume ≤ o.currentVolume :=
          min_le_left _ _
        have hminle2 : min o.currentVolume m.currentVolume ≤ m.currentVolume :=
          min_le_right _ _
        have hminnn : 0 ≤ min o.currentVolume m.currentVolume := le_min hno hmnn
        rw [stepOrders_stepFn st o m hneid]
        apply ih
        · exact pairwise_id_map st (stepFn o m) (stepFn_id o m) huniq
        · intro x hx hxid
          obtain ⟨x0, hx0, rfl⟩ := List.mem_map.mp hx
          rw [stepFn_id] at hxid
          have hxid0 : x0.id = o.id := hxid
          obtain ⟨hcv0, hov0, hsel0⟩ := hoS x0 hx0 hxid0
          refine ⟨?_, ?_, ?_⟩
          · rw [stepFn_cv_o o m x0 hxid0]
            rfl
          · rw [stepFn_ov, hov0]
            rfl
          · rw [stepFn_selling, hsel0]
            rfl
        · intro x hx
          obtain ⟨x0, hx0, rfl⟩ := List.mem_map.mp hx
          by_cases h1 : x0.id = o.id
          · rw [stepFn_cv_o o m x0 h1]
            omega
          · by_cases h2 : x0.id = m.id
            · rw [stepFn_cv_m o m x0 h1 h2]
              omega
            · rw [stepFn_other o m x0 h1 h2]
              exact hnn x0 hx0
        · simp only [stepIncoming]
          omega
        · intro x hx
          obtain ⟨x0, hx0, rfl⟩ := List.mem_map.mp hx
          rw [stepFn_ov, stepFn_id, volumeOf_append_single]
          by_cases h1 : x0.id = o.id
          · rw [stepFn_cv_o o m x0 h1]
            have hinv : involves (stepFill o m) x0.id = true := by
              unfold involves stepFill
              simp [h1]
            rw [if_pos hinv]
            obtain ⟨hcv0, hov0, _⟩ := hoS x0 hx0 h1
            simp only [stepFill]
            rw [hov0, h1]
            omega
          · by_cases h2 : x0.id = m.id
            · have hx0m : x0 = m := mem_id_unique st huniq x0 m hx0 hmem h2
              rw [stepFn_cv_m o m x0 h1 h2]
              have hinv : involves (stepFill o m) x0.id = true := by
                unfold involves stepFill
                simp [h2]
              rw [if_pos hinv]
              have hmacct := hacct m hmem
              simp only [stepFill]
              rw [hx0m]
              omega
            · have hno1 : ¬ (o.id = x0.id) := fun h => h1 h.symm
              have hno2 : ¬ (m.id = x0.id) := fun h => h2 h.symm
              have hinv : involves (stepFill o m) x0.id = false := by
                unfold involves stepFill
                simp [hno1, hno2]
              rw [stepFn_other o m x0 h1 h2, if_neg (by simp [hinv])]
              have := hacct x0 hx0
              omega
        · simp only [stepIncoming]
          rw [volumeOf_append_single]
          have hinv : involves (stepFill o m) o.id = true := by
            unfold involves stepFill
            simp
          rw [if_pos hinv]
          simp only [stepFill]
          omega
        · intro f hf
          rcases List.mem_append.mp hf with h1 | h1
          · exact hfnn f h1
          · rw [List.mem_singleton] at h1
            subst h1
            exact hminnn
        · intro f hf
          rcases List.mem_append.mp hf with h1 | h1
          · exact hfne f h1
          · rw [List.mem_singleton] at h1
            subst h1
            exact hneid
    · rw [matchLoop_succ_stop fuel st fills o latest hg]
      exact ⟨hnn, hacct, hfnn, hfne⟩

theorem processOrder_VolInv (st : EngineState) (o : Order) (ho : o ∈ st.orders)
    (hI : IdInv st) (hV : VolInv st) : VolInv (processOrder st o) := by
  have hoS : ∀ x ∈ st.orders, x.id = o.id → x.currentVolume = o.currentVolume ∧
      x.originalVolume = o.originalVolume ∧ x.isSelling = o.isSelling := by
    intro x hx hxid
    have hxo : x = o := mem_id_unique st.orders hI.uniq x o hx ho hxid
    rw [hxo]
    exact ⟨rfl, rfl, rfl⟩
  obtain ⟨hnn2, hacct2, hfnn2, hfne2⟩ := matchLoop_vol_inv (st.orders.length + 1)
    st.orders st.fills o none hI.uniq hoS hV.nonneg (hV.nonneg o ho) hV.acct
    (hV.acct o ho) hV.fillNonneg hV.fillNe
  constructor
  · intro x hx
    simp only [processOrder, setStatus] at hx
    obtain ⟨x0, hx0, rfl⟩ := List.mem_map.mp hx
    by_cases h1 : x0.id = o.id
    · rw [if_pos h1]
      exact hnn2 x0 hx0
    · rw [if_neg h1]
      exact hnn2 x0 hx0
  · intro x hx
    simp only [processOrder, setStatus] at hx
    obtain ⟨x0, hx0, rfl⟩ := List.mem_map.mp hx
    by_cases h1 : x0.id = o.id
    · rw [if_pos h1]
      exact hacct2 x0 hx0
    · rw [if_neg h1]
      exact hacct2 x0 hx0
  · exact hfnn2
  · exact hfne2

theorem drainLoop_VolInv (fuel : Nat) (st : EngineState) (hI : IdInv st)
    (hV : VolInv st) : VolInv (drainLoop fuel st) := by
  induction fuel generalizing st with
  | zero => exact hV
  | succ fuel ih =>
    simp only [drainLoop]
    by_cases hp : st.processing
    · rw [if_pos hp]
      exact hV
    · rw [if_neg hp]
      rcases ho : oldestUnprocessed st.orders with _ | o
      · exact ⟨hV.nonneg, hV.acct, hV.fillNonneg, hV.fillNe⟩
      · obtain ⟨hmem, _⟩ := findOneSorted_mem ho
        exact ih _ (processOrder_IdInv _ o hmem ⟨hI.uniq, hI.idLt, hI.fillIds⟩)
          (processOrder_VolInv _ o hmem ⟨hI.uniq, hI.idLt, hI.fillIds⟩
            ⟨hV.nonneg, hV.acct, hV.fillNonneg, hV.fillNe⟩)

theorem runOp_VolInv (st : EngineState) (op : Op) (hop : opVolNonneg op = true)
    (hI : IdInv st) (hV : VolInv st) : VolInv (runOp st op) := by
  cases op with
  | place l v u sd =>
    have hv : (0 : Int) ≤ v := by simpa [opVolNonneg] using hop
    apply drainLoop_VolInv _ _ (IdInv_place st l v u sd hI)
    constructor
    · intro x hx
      rcases List.mem_append.mp hx with h1 | h1
      · exact hV.nonneg x h1
      · rw [List.mem_singleton] at h1
        subst h1
        exact hv
    · intro x hx
      rcases List.mem_append.mp hx with h1 | h1
      · exact hV.acct x h1
      · rw [List.mem_singleton] at h1
        subst h1
        have h0 : volumeOf st.fills st.nextId = 0 := by
          apply volumeOf_fresh
          intro f hf
          have hb := hI.fillIds f hf
          have hb1 : ¬ (f.incomingId = st.nextId) := by omega
          have hb2 : ¬ (f.counterId = st.nextId) := by omega
          unfold involves
          simp [hb1, hb2]
        show v = v - volumeOf st.fills st.nextId
        omega
    · exact hV.fillNonneg
    · exact hV.fillNe
  | cancel id =>
    constructor
    · intro x hx
      simp only [cancelOrder, setStatus] at hx
      obtain ⟨x0, hx0, rfl⟩ := List.mem_map.mp hx
      by_cases h1 : x0.id = id
      · rw [if_pos h1]
        exact hV.nonneg x0 hx0
      · rw [if_neg h1]
        exact hV.nonneg x0 hx0
    · intro x hx
      simp only [cancelOrder, setStatus] at hx
      obtain ⟨x0, hx0, rfl⟩ := List.mem_map.mp hx
      by_cases h1 : x0.id = id
      · rw [if_pos h1]
        exact hV.acct x0 hx0
      · rw [if_neg h1]
        exact hV.acct x0 hx0
    · exact hV.fillNonneg
    · exact hV.fillNe
  | trigger => exact drainLoop_VolInv _ _ hI hV

theorem runOps_VolInv (st : EngineState) (ops : List Op)
    (hops : ∀ op ∈ ops, opVolNonneg op = true)
    (hI : IdInv st) (hV : VolInv st) : VolInv (runOps st ops) := by
  induction ops generalizing st with
  | nil => exact hV
  | cons op rest ih =>
    exact ih (runOp st op) (fun o ho => hops o (List.mem_cons_of_mem op ho))
      (runOp_IdInv st op hI)
      (runOp_VolInv st op (hops op (List.mem_cons_self op rest)) hI hV)

theorem VolInv_init : VolInv initState := by
  refine ⟨?_, ?_, ?_, ?_⟩ <;> intro x hx <;> cases hx

/-- **C3 (amended).** For every sequence of engine operations in which
every `placeOrder` carries a non-negative volume (the validation the spec
assumes but the code omits), every order in every reachable state
satisfies `0 ≤ currentVolume ≤ originalVolume`, and the cumulative
committed fill volume between any two orders never exceeds the minimum of
their original volumes. -/
theorem volume_invariants (ops : List Op)
    (hops : ∀ op ∈ ops, opVolNonneg op = true) :
    (∀ x ∈ (runOps initState ops).orders,
      0 ≤ x.currentVolume ∧ x.currentVolume ≤ x.originalVolume) ∧
    (∀ i j oi oj, getOrder (runOps initState ops).orders i = some oi →
      getOrder (runOps initState ops).orders j = some oj →
      pairVolume (runOps initState ops).fills i j ≤
        min oi.originalVolume oj.originalVolume) := by
  have hV : VolInv (runOps initState ops) :=
    runOps_VolInv initState ops hops IdInv_init VolInv_init
  constructor
  · intro x hx
    refine ⟨hV.nonneg x hx, ?_⟩
    have ha := hV.acct x hx
    have h0 : 0 ≤ volumeOf (runOps initState ops).fills x.id :=
      sum_filter_nonneg _ _ hV.fillNonneg
    omega
  · intro i j oi oj hi hj
    have hoimem : oi ∈ (runOps initState ops).orders := List.mem_of_find?_eq_some hi
    have hojmem : oj ∈ (runOps initState ops).orders := List.mem_of_find?_eq_some hj
    have hoiid : oi.id = i := by simpa using List.find?_some hi
    have hojid : oj.id = j := by simpa using List.find?_some hj
    have h1 : pairVolume (runOps initState ops).fills i j ≤
        volumeOf (runOps initState ops).fills i := by
      unfold pairVolume volumeOf
      apply sum_filter_mono
      · intro f hf hp
        unfold betweenPair at hp
        unfold involves
        simp only [Bool.or_eq_true, Bool.and_eq_true, decide_eq_true_eq] at hp ⊢
        rcases hp with ⟨ha, _⟩ | ⟨_, hb⟩
        · exact Or.inl ha
        · exact Or.inr hb
      · exact hV.fillNonneg
    have h2 : pairVolume (runOps initState ops).fills i j ≤
        volumeOf (runOps initState ops).fills j := by
      unfold pairVolume volumeOf
      apply sum_filter_mono
      · intro f hf hp
        unfold betweenPair at hp
        unfold involves
        simp only [Bool.or_eq_true, Bool.and_eq_true, decide_eq_true_eq] at hp ⊢
        rcases hp with ⟨_, hb⟩ | ⟨ha, _⟩
        · exact Or.inr hb
        · exact Or.inl ha
      · exact hV.fillNonneg
    have hai := hV.acct oi hoimem
    have haj := hV.acct oj hojmem
    rw [hoiid] at hai
    rw [hojid] at haj
    have hbi := hV.nonneg oi hoimem
    have hbj := hV.nonneg oj hojmem
    refine le_min ?_ ?_
    · omega
    · omega

/-- Witness: the partial-fill example places volumes 5 and 8 (both
non-negative); afterwards both orders satisfy the bounds and the pair
volume between ids 0 and 1 is 5 ≤ min(5, 8). -/
theorem volume_invariants_witness :
    (∀ op ∈ [Op.place 10 5 "a" true, Op.place 12 8 "b" false],
      opVolNonneg op = true) ∧
    ((∀ x ∈ (runOps initState [Op.place 10 5 "a" true, Op.place 12 8 "b" false]).orders,
      0 ≤ x.currentVolume ∧ x.currentVolume ≤ x.originalVolume) ∧
    (∀ i j oi oj,
      getOrder (runOps initState
        [Op.place 10 5 "a" true, Op.place 12 8 "b" false]).orders i = some oi →
      getOrder (runOps initState
        [Op.place 10 5 "a" true, Op.place 12 8 "b" false]).orders j = some oj →
      pairVolume (runOps initState
        [Op.place 10 5 "a" true, Op.place 12 8 "b" false]).fills i j ≤
        min oi.originalVolume oj.originalVolume)) :=
  ⟨by decide,
    volume_invariants [Op.place 10 5 "a" true, Op.place 12 8 "b" false] (by decide)⟩
